import Mathlib

/-!
Verification development for the Silent Charges turn-resolution engine
(src/game.js and the level editor in src/unnamed/part_000).

The JavaScript source is shallowly embedded below.  Conventions:
* JS numbers holding grid coordinates are modelled as Int, counters and
  sizes as Nat.
* The JS value Infinity returned by getPathDistance is modelled as the
  Option value none.
* A JS config field that may be absent (maxActiveBombs is not part of
  DEFAULT_CONFIG) is an Option; the JS comparison x >= undefined is false,
  which the none branch reproduces.
* Math.round in hasLineOfSight is modelled exactly over rationals:
  Math.round v rounds half toward positive infinity, so
  round (a + n/d) = a + fdiv (2n + d) (2d) for d > 0.  The JS engine
  evaluates n/d in binary floating point; for the coordinate ranges in all
  concrete levels used below the two agree (the divisions are exact).
-/

set_option maxHeartbeats 1000000

/-- Tile code constants from the source: 0 = Floor, 1 = Wall, 2 = Void. -/
def Tile.FLOOR : Nat := 0

/-- Wall tile code. -/
def Tile.WALL : Nat := 1

/-- Void tile code. -/
def Tile.VOID : Nat := 2

/-- Grid coordinate pair, embedding the Vec class (x, y as JS numbers). -/
structure Vec where
  x : Int
  y : Int
deriving DecidableEq, Repr

/-- Vec.manhattanDistance from the source. -/
def Vec.manhattanDistance (a b : Vec) : Nat :=
  (a.x - b.x).natAbs + (a.y - b.y).natAbs

/-- The four direction offsets used by the pathfinder, in source order
N, E, S, W. -/
def directions : List Vec :=
  [⟨0, -1⟩, ⟨1, 0⟩, ⟨0, 1⟩, ⟨-1, 0⟩]

/-- Componentwise translation of a position by a direction offset. -/
def Vec.add (a d : Vec) : Vec := ⟨a.x + d.x, a.y + d.y⟩

/-- The four orthogonal neighbours of a cell, in source order. -/
def nbrs (a : Vec) : List Vec := directions.map (Vec.add a)

/-- Level configuration bundle.  Fields mirror DEFAULT_CONFIG plus the two
options that only appear in level files (maxActiveBombs, timersAllowed).
maxActiveBombs is Option because DEFAULT_CONFIG does not define it. -/
structure Config where
  gridSize : Nat
  blastRange : Nat
  defaultHearingRadius : Nat
  memoryTTL : Nat
  maxActiveBombs : Option Nat
  maxBombsPerTurn : Nat
  timersAllowed : Bool
  chainReactions : Bool
  undoEnabled : Bool
deriving DecidableEq, Repr

/-- DEFAULT_CONFIG from the source.  It defines neither maxActiveBombs nor
timersAllowed; an absent maxActiveBombs is none and an absent timersAllowed
is falsy, i.e. false. -/
def DEFAULT_CONFIG : Config :=
  { gridSize := 32
    blastRange := 3
    defaultHearingRadius := 8
    memoryTTL := 8
    maxActiveBombs := none
    maxBombsPerTurn := 1
    timersAllowed := false
    chainReactions := false
    undoEnabled := true }

/-- A destructible target. -/
structure Target where
  id : Nat
  pos : Vec
  destroyed : Bool
deriving DecidableEq, Repr

/-- Bomb state: the BombState enum. -/
inductive BombSt where
  | ticking
  | exploding
deriving DecidableEq, Repr

/-- A placed bomb.  turnPlaced is assigned right after construction in
Game.placeBomb. -/
structure Bomb where
  id : Nat
  pos : Vec
  hasTimer : Bool
  timer : Nat
  state : BombSt
  turnPlaced : Nat
deriving DecidableEq, Repr

/-- Bomb.getNoiseLevel from the source. -/
def Bomb.getNoiseLevel (b : Bomb) : Nat :=
  if b.state = BombSt.exploding then 4
  else if ¬ b.hasTimer then 3
  else 4 - b.timer

/-- A guard memory record: the last personally heard explosion. -/
structure Mem where
  pos : Vec
  turnIndex : Nat
deriving DecidableEq, Repr

/-- A guard. -/
structure Guard where
  id : Nat
  pos : Vec
  hearingRadius : Nat
  memory : Option Mem
  targetPos : Option Vec
deriving DecidableEq, Repr

/-- A loaded level: the outcome of the Level constructor. -/
structure Level where
  grid : List (List Nat)
  targets : List Target
  guards : List Guard
  config : Config
deriving DecidableEq, Repr

/-- Level.isValidPosition: bounds check against config.gridSize. -/
def Level.isValidPosition (l : Level) (p : Vec) : Bool :=
  0 ≤ p.x && p.x < (l.config.gridSize : Int) && 0 ≤ p.y && p.y < (l.config.gridSize : Int)

/-- Reading this.grid[y][x]; out-of-range reads only occur after the
isValidPosition guard in the source, so the default is never observable. -/
def Level.getTile (l : Level) (p : Vec) : Nat :=
  (l.grid.getD p.y.toNat []).getD p.x.toNat Tile.VOID

/-- Level.isPassable: in bounds and a Floor tile. -/
def Level.isPassable (l : Level) (p : Vec) : Bool :=
  l.isValidPosition p && l.getTile p == Tile.FLOOR

/-- Level.isOccupiedByTarget: a live target sits on the cell. -/
def Level.isOccupiedByTarget (l : Level) (p : Vec) : Bool :=
  l.targets.any (fun t => !t.destroyed && t.pos == p)

/-- Level.isOccupiedByGuard. -/
def Level.isOccupiedByGuard (l : Level) (p : Vec) : Bool :=
  l.guards.any (fun g => g.pos == p)

/-- Level.canPlaceBomb.  Note: the source checks targets and guards but not
existing bombs. -/
def Level.canPlaceBomb (l : Level) (p : Vec) : Bool :=
  l.isValidPosition p && l.getTile p == Tile.FLOOR &&
    !(l.isOccupiedByTarget p) && !(l.isOccupiedByGuard p)

/-- Round half toward positive infinity of the rational num / den for
den > 0, matching JS Math.round on that rational value. -/
def jsRoundQ (num den : Int) : Int := Int.fdiv (2 * num + den) (2 * den)

/-- Game.hasLineOfSight: walk the straight segment in max-metric steps and
fail on the first intermediate Wall cell. -/
def hasLineOfSight (l : Level) (s e : Vec) : Bool :=
  let dx := e.x - s.x
  let dy := e.y - s.y
  if dx = 0 ∧ dy = 0 then true
  else
    let steps : Nat := max dx.natAbs dy.natAbs
    (List.range' 1 (steps - 1)).all fun i =>
      let cp : Vec := ⟨s.x + jsRoundQ (dx * i) steps, s.y + jsRoundQ (dy * i) steps⟩
      !(l.isValidPosition cp && l.getTile cp == Tile.WALL)

/-- The ascending run of len consecutive integers starting at a: the JS
for loop from a to a + len - 1 inclusive. -/
def intRange (a : Int) : Nat → List Int
  | 0 => []
  | n + 1 => a :: intRange (a + 1) n

/-- Game.calculateCircularBlast: every in-bounds cell of the surrounding
square whose Euclidean distance to the bomb is at most radius and which has
line of sight to the bomb.  The float comparison sqrt (dx2 + dy2) <= radius
is equivalent to the exact integer comparison dx2 + dy2 <= radius2. -/
def calculateCircularBlast (l : Level) (bombPos : Vec) (radius : Nat) : List Vec :=
  (intRange (bombPos.x - radius) (2 * radius + 1)).flatMap fun x =>
    (intRange (bombPos.y - radius) (2 * radius + 1)).filterMap fun y =>
      let p : Vec := ⟨x, y⟩
      let dx := p.x - bombPos.x
      let dy := p.y - bombPos.y
      if dx * dx + dy * dy ≤ (radius : Int) * radius ∧ l.isValidPosition p = true
          ∧ hasLineOfSight l bombPos p = true then
        some p
      else none

/-- Game.calculateBlastTiles: a circular blast of radius
max 1 (blastRange - 1). -/
def calculateBlastTiles (l : Level) (bombPos : Vec) : List Vec :=
  calculateCircularBlast l bombPos (max 1 (l.config.blastRange - 1))

/-- A node of the A star open set in Pathfinder.getPathDistance: position
plus accumulated cost g.  The stored f value in the source is always
g + manhattan pos goal (it is assigned exactly that way at every push), so
the comparator recomputes it instead of storing it. -/
structure ANode where
  pos : Vec
  g : Nat
deriving DecidableEq, Repr

/-- The open-set sort comparator of the source (f ascending, then heuristic
ascending, then y, then x); nodeLE e a b holds when a sorts before or ties
with b. -/
def nodeLE (e : Vec) (a b : ANode) : Bool :=
  let fa := a.g + a.pos.manhattanDistance e
  let fb := b.g + b.pos.manhattanDistance e
  if fa ≠ fb then fa < fb
  else
    let ha := a.pos.manhattanDistance e
    let hb := b.pos.manhattanDistance e
    if ha ≠ hb then ha < hb
    else if a.pos.y ≠ b.pos.y then a.pos.y < b.pos.y
    else a.pos.x ≤ b.pos.x

/-- Extract a minimal element under nodeLE together with the remaining
list: the effect of openSet.sort followed by openSet.shift. -/
def selectMin (e : Vec) : List ANode → Option (ANode × List ANode)
  | [] => none
  | n :: rest =>
    match selectMin e rest with
    | none => some (n, [])
    | some (m, rest2) =>
      if nodeLE e n m then some (n, rest) else some (m, n :: rest2)

/-- Association-list lookup, modelling Map.get. -/
def lookupA (m : List (Vec × Nat)) (k : Vec) : Option Nat :=
  match m with
  | [] => none
  | (k2, v) :: rest => if k2 = k then some v else lookupA rest k

/-- Association-list update, modelling Map.set (updates keep their original
position, new keys append). -/
def setA (m : List (Vec × Nat)) (k : Vec) (v : Nat) : List (Vec × Nat) :=
  match m with
  | [] => [(k, v)]
  | (k2, v2) :: rest => if k2 = k then (k2, v) :: rest else (k2, v2) :: setA rest k v

/-- The JS expression gScore.get(key) || Infinity: a missing entry and an
entry 0 (0 is falsy) both give Infinity, modelled as none. -/
def jsGScore (m : List (Vec × Nat)) (k : Vec) : Option Nat :=
  match lookupA m k with
  | none => none
  | some g => if g = 0 then none else some g

/-- Remove the first open-set node at a given position, modelling the
findIndex plus splice pair in the source. -/
def removeNode (np : Vec) : List ANode → List ANode
  | [] => []
  | n :: rest => if n.pos = np then rest else n :: removeNode np rest

/-- The mutable state of one getPathDistance call. -/
structure SearchSt where
  frontier : List ANode
  closed : List Vec
  gmap : List (Vec × Nat)
deriving Repr

/-- Relax one neighbour of the current node (one iteration of the inner
direction loop). -/
def relaxNbr (l : Level) (cur : ANode) (st : SearchSt) (d : Vec) : SearchSt :=
  let np := cur.pos.add d
  if !(l.isPassable np) || st.closed.contains np then st
  else
    let tG := cur.g + 1
    let better :=
      match jsGScore st.gmap np with
      | none => true
      | some g => decide (tG < g)
    if better then
      { frontier := removeNode np st.frontier ++ [⟨np, tG⟩]
        closed := st.closed
        gmap := setA st.gmap np tG }
    else st

/-- Expand the current node: relax its four neighbours in source order. -/
def expandNode (l : Level) (cur : ANode) (st : SearchSt) : SearchSt :=
  directions.foldl (relaxNbr l cur) st

/-- The while loop of getPathDistance.  The fuel argument only bounds the
iteration count; laterally it is chosen large enough that it never runs
out (each iteration closes a distinct cell of the finite grid). -/
def astarLoop (l : Level) (e : Vec) : Nat → SearchSt → Option Nat
  | 0, _ => none
  | fuel + 1, st =>
    match selectMin e st.frontier with
    | none => none
    | some (cur, rest) =>
      if cur.pos = e then some cur.g
      else
        astarLoop l e fuel
          (expandNode l cur
            { frontier := rest, closed := cur.pos :: st.closed, gmap := st.gmap })

/-- Pathfinder.getPathDistance; none models the Infinity result. -/
def getPathDistance (l : Level) (s e : Vec) : Option Nat :=
  if s = e then some 0
  else
    astarLoop l e (l.config.gridSize * l.config.gridSize + 2)
      { frontier := [⟨s, 0⟩], closed := [], gmap := [(s, 0)] }

/-- A node of the getNextStep search.  Instead of the parent pointer of the
source, each node carries the first step of its generating path: the parent
walk in the source returns the node whose parent is the start node, and
that is exactly this field (none marks the start node itself). -/
structure SNode where
  pos : Vec
  g : Nat
  first : Option Vec
deriving DecidableEq, Repr

/-- The comparator of the getNextStep open set (identical keys to nodeLE). -/
def stepLE (e : Vec) (a b : SNode) : Bool :=
  let fa := a.g + a.pos.manhattanDistance e
  let fb := b.g + b.pos.manhattanDistance e
  if fa ≠ fb then fa < fb
  else
    let ha := a.pos.manhattanDistance e
    let hb := b.pos.manhattanDistance e
    if ha ≠ hb then ha < hb
    else if a.pos.y ≠ b.pos.y then a.pos.y < b.pos.y
    else a.pos.x ≤ b.pos.x

/-- Extract a minimal SNode and the rest of the open set. -/
def selectMinS (e : Vec) : List SNode → Option (SNode × List SNode)
  | [] => none
  | n :: rest =>
    match selectMinS e rest with
    | none => some (n, [])
    | some (m, rest2) =>
      if stepLE e n m then some (n, rest) else some (m, n :: rest2)

/-- Remove the first SNode at a position. -/
def removeNodeS (np : Vec) : List SNode → List SNode
  | [] => []
  | n :: rest => if n.pos = np then rest else n :: removeNodeS np rest

/-- The mutable state of one getNextStep call. -/
structure StepSt where
  frontier : List SNode
  closed : List Vec
  gmap : List (Vec × Nat)
deriving Repr

/-- Relax one neighbour in getNextStep, propagating the first step. -/
def relaxNbrS (l : Level) (cur : SNode) (st : StepSt) (d : Vec) : StepSt :=
  let np := cur.pos.add d
  if !(l.isPassable np) || st.closed.contains np then st
  else
    let tG := cur.g + 1
    let better :=
      match jsGScore st.gmap np with
      | none => true
      | some g => decide (tG < g)
    if better then
      { frontier :=
          removeNodeS np st.frontier ++
            [⟨np, tG, some (match cur.first with | none => np | some f => f)⟩]
        closed := st.closed
        gmap := setA st.gmap np tG }
    else st

/-- Expand the current SNode over the four directions. -/
def expandNodeS (l : Level) (cur : SNode) (st : StepSt) : StepSt :=
  directions.foldl (relaxNbrS l cur) st

/-- The while loop of getNextStep; returns the first step of the found
path, or the start cell when no path exists. -/
def stepLoop (l : Level) (s e : Vec) : Nat → StepSt → Vec
  | 0, _ => s
  | fuel + 1, st =>
    match selectMinS e st.frontier with
    | none => s
    | some (cur, rest) =>
      if cur.pos = e then
        match cur.first with
        | none => cur.pos
        | some f => f
      else
        stepLoop l s e fuel
          (expandNodeS l cur
            { frontier := rest, closed := cur.pos :: st.closed, gmap := st.gmap })

/-- Pathfinder.getNextStep. -/
def getNextStep (l : Level) (s e : Vec) : Vec :=
  if s = e then s
  else
    stepLoop l s e (l.config.gridSize * l.config.gridSize + 2)
      { frontier := [⟨s, 0, none⟩], closed := [], gmap := [(s, 0)] }

/-- Game outcome states: the GameState enum. -/
inductive GState where
  | playing
  | won
  | lost
deriving DecidableEq, Repr

/-- The Game aggregate: the parts of the Game class that carry game state
(rendering, history and animation fields are presentation only). -/
structure Game where
  level : Level
  bombs : List Bomb
  turnIndex : Nat
  gameState : GState
  bombIdCounter : Nat
deriving DecidableEq, Repr

/-- Game.placeBomb.  Returns the JS boolean result together with the next
state; a rejection leaves the state untouched. -/
def Game.placeBomb (g : Game) (pos : Vec) : Bool × Game :=
  if !(g.level.canPlaceBomb pos) then (false, g)
  else if (match g.level.config.maxActiveBombs with
           | none => false
           | some m => decide (m ≤ g.bombs.length)) then (false, g)
  else if g.level.config.maxBombsPerTurn ≤
      (g.bombs.filter (fun b => b.turnPlaced == g.turnIndex)).length then (false, g)
  else
    let bomb : Bomb :=
      { id := g.bombIdCounter, pos := pos,
        hasTimer := g.level.config.timersAllowed,
        timer := if g.level.config.timersAllowed then 3 else 1,
        state := BombSt.ticking, turnPlaced := g.turnIndex }
    (true, { g with bombs := g.bombs ++ [bomb], bombIdCounter := g.bombIdCounter + 1 })

/-- An ephemeral noise-ledger record {pos, level}. -/
structure Noise where
  pos : Vec
  level : Nat
deriving DecidableEq, Repr

/-- Stable insertion of one element into a sorted list: x goes in front of
the first element y with le x y. -/
def insertLE {α : Type} (le : α → α → Bool) (x : α) : List α → List α
  | [] => [x]
  | y :: ys => if le x y then x :: y :: ys else y :: insertLE le x ys

/-- Stable insertion sort, modelling the stable Array.prototype.sort. -/
def sortByLE {α : Type} (le : α → α → Bool) (l : List α) : List α :=
  l.foldr (insertLE le) []

/-- Strict comparison of path distances where none stands for Infinity. -/
def distLT (a b : Option Nat) : Bool :=
  match a, b with
  | none, _ => false
  | some _, none => true
  | some m, some n => m < n

/-- Audibility filter of chooseGuardTarget and of the memory update:
path distance at most the hearing radius (Infinity fails). -/
def audibleB (l : Level) (g : Guard) (s : Noise) : Bool :=
  match getPathDistance l g.pos s.pos with
  | none => false
  | some d => d ≤ g.hearingRadius

/-- The sort comparator of chooseGuardTarget: loudness descending, path
distance ascending, detonations before ticking sources, then row-major
position.  The Bool component tags provenance from explodingSources, which
is what the reference-identity includes test observes. -/
def srcLE (l : Level) (gpos : Vec) (a b : Noise × Bool) : Bool :=
  if a.1.level ≠ b.1.level then b.1.level < a.1.level
  else
    let da := getPathDistance l gpos a.1.pos
    let db := getPathDistance l gpos b.1.pos
    if da ≠ db then distLT da db
    else if a.2 ≠ b.2 then a.2
    else if a.1.pos.y ≠ b.1.pos.y then a.1.pos.y < b.1.pos.y
    else a.1.pos.x ≤ b.1.pos.x

/-- Game.chooseGuardTarget: concatenate the ledger (ticking then exploding,
tagged by provenance), filter to audible sources, sort, take the head. -/
def chooseGuardTarget (l : Level) (g : Guard) (ticking exploding : List Noise) :
    Option (Noise × Bool) :=
  let allSources := ticking.map (fun s => (s, false)) ++ exploding.map (fun s => (s, true))
  let audible := allSources.filter (fun s => audibleB l g s.1)
  match sortByLE (srcLE l g.pos) audible with
  | [] => none
  | s :: _ => some s

/-- Map.get over a Nat-keyed association list. -/
def lookupM {ν : Type} : List (Nat × ν) → Nat → Option ν
  | [], _ => none
  | (k2, v) :: rest, k => if k2 = k then some v else lookupM rest k

/-- Map.set over a Nat-keyed association list (updates in place, new keys
append, as the JS Map iteration order prescribes). -/
def setM {ν : Type} : List (Nat × ν) → Nat → ν → List (Nat × ν)
  | [], k, v => [(k, v)]
  | (k2, v2) :: rest, k, v =>
    if k2 = k then (k2, v) :: rest else (k2, v2) :: setM rest k v

/-- The guard ids that proposed a given destination, in proposal order:
the contents of destinationMap.get for that key. -/
def claimants (proposals : List (Nat × Vec)) (d : Vec) : List Nat :=
  (proposals.filter (fun pr => pr.2 == d)).map Prod.fst

/-- Game.resolveMovementConflicts.  Proposals are iterated in map order;
a destination with two or more claimants makes its proposer stay; then the
swap check: if some other guard proposed the current cell of this guard
(the JS truthiness test makes guard id 0 invisible here), both parties are
reset to their current positions; otherwise the move is granted.  Finally
every guard takes its validMoves entry if one exists. -/
def resolveMovementConflicts (guards : List Guard) (proposals : List (Nat × Vec)) :
    List Guard :=
  let validMoves := proposals.foldl (fun vm pr =>
    match guards.find? (fun g => g.id == pr.1) with
    | none => vm
    | some guard =>
      if 1 < (claimants proposals pr.2).length then
        setM vm pr.1 guard.pos
      else
        match (claimants proposals guard.pos).find? (fun i => i != pr.1) with
        | some oid =>
          if oid = 0 then setM vm pr.1 pr.2
          else
            match guards.find? (fun g => g.id == oid), lookupM proposals oid with
            | some og, some od =>
              if od = guard.pos then setM (setM vm pr.1 guard.pos) oid og.pos
              else setM vm pr.1 pr.2
            | _, _ => setM vm pr.1 pr.2
        | none => setM vm pr.1 pr.2) []
  guards.map fun g =>
    match lookupM validMoves g.id with
    | some np => { g with pos := np }
    | none => g

/-- Phase 1 of simulateTurn for one bomb: advance the timer, transition to
the exploding state when due, and emit the noise entries. -/
def tickBomb (timersAllowed : Bool) (b : Bomb) : Bomb × List Noise × List Noise :=
  if timersAllowed && b.hasTimer then
    if 1 < b.timer then
      let b2 := { b with timer := b.timer - 1 }
      (b2, [⟨b2.pos, b2.getNoiseLevel⟩], [])
    else
      ({ b with state := BombSt.exploding }, [⟨b.pos, b.getNoiseLevel⟩], [⟨b.pos, 4⟩])
  else
    ({ b with state := BombSt.exploding }, [], [⟨b.pos, 4⟩])

/-- Phase 1 of simulateTurn over the whole bomb list, keeping bomb order
and noise order. -/
def tickAll (timersAllowed : Bool) (bombs : List Bomb) :
    List Bomb × List Noise × List Noise :=
  bombs.foldl (fun acc b =>
    let r := tickBomb timersAllowed b
    (acc.1 ++ [r.1], acc.2.1 ++ r.2.1, acc.2.2 ++ r.2.2)) ([], [], [])

/-- Phase 2 of simulateTurn for one guard: pick a pursuit target, update
memory and targetPos, and produce the proposed destination. -/
def guardDecision (l : Level) (turnIndex : Nat) (ticking exploding : List Noise)
    (g : Guard) : Guard × Vec :=
  match chooseGuardTarget l g ticking exploding with
  | some t =>
    ({ g with memory := none, targetPos := some t.1.pos }, getNextStep l g.pos t.1.pos)
  | none =>
    match g.memory with
    | some m =>
      if (turnIndex : Int) - (m.turnIndex : Int) ≤ (l.config.memoryTTL : Int) then
        ({ g with targetPos := some m.pos }, getNextStep l g.pos m.pos)
      else ({ g with targetPos := none }, g.pos)
    | none => ({ g with targetPos := none }, g.pos)

/-- The sort comparator of the phase 5 memory update: path distance
ascending, then row-major position. -/
def memLE (l : Level) (gpos : Vec) (a b : Noise) : Bool :=
  let da := getPathDistance l gpos a.pos
  let db := getPathDistance l gpos b.pos
  if da ≠ db then distLT da db
  else if a.pos.y ≠ b.pos.y then a.pos.y < b.pos.y
  else a.pos.x ≤ b.pos.x

/-- Phase 5 of simulateTurn for one guard: remember the nearest audible
detonation of this turn, or expire stale memory. -/
def updateMemory (l : Level) (turnIndex : Nat) (exploding : List Noise) (g : Guard) :
    Guard :=
  let audEx := exploding.filter (audibleB l g)
  match sortByLE (memLE l g.pos) audEx with
  | first :: _ => { g with memory := some ⟨first.pos, turnIndex⟩ }
  | [] =>
    match g.memory with
    | some m =>
      if (l.config.memoryTTL : Int) < (turnIndex : Int) - (m.turnIndex : Int) then
        { g with memory := none }
      else g
    | none => g

/-- Game.simulateTurn: the six phases of the turn engine.  Rendering and
animation bookkeeping of the source are omitted; the auto-advance timer at
a win does not touch the returned state. -/
def Game.simulateTurn (gm : Game) : Game :=
  let turn2 := gm.turnIndex + 1
  let l := gm.level
  let ticked := tickAll l.config.timersAllowed gm.bombs
  let bombs2 := ticked.1
  let ticking := ticked.2.1
  let exploding := ticked.2.2
  let decisions := l.guards.map (guardDecision l turn2 ticking exploding)
  let guards2 := decisions.map Prod.fst
  let proposals := decisions.foldl (fun acc d => setM acc d.1.id d.2) []
  let guards3 := resolveMovementConflicts guards2 proposals
  let explodingBombs := bombs2.filter (fun b => b.state == BombSt.exploding)
  let targets2 := l.targets.map fun t =>
    if !t.destroyed &&
        explodingBombs.any (fun b => (calculateBlastTiles l b.pos).contains t.pos) then
      { t with destroyed := true }
    else t
  let killed := explodingBombs.any fun b =>
    guards3.any fun g => (calculateBlastTiles l b.pos).contains g.pos
  let bombs3 := bombs2.filter (fun b => !(b.state == BombSt.exploding))
  let guards4 := guards3.map (updateMemory l turn2 exploding)
  let state2 :=
    if killed then GState.lost
    else if targets2.all (·.destroyed) then GState.won
    else gm.gameState
  { level := { l with guards := guards4, targets := targets2 },
    bombs := bombs3, turnIndex := turn2, gameState := state2,
    bombIdCounter := gm.bombIdCounter }

/-- A guard record of a level descriptor. -/
structure GuardData where
  x : Int
  y : Int
  hearingRadius : Option Nat
deriving DecidableEq, Repr

/-- A target record of a level descriptor. -/
structure TargetData where
  x : Int
  y : Int
deriving DecidableEq, Repr

/-- The config block of a level descriptor; every field may be absent. -/
structure ConfigData where
  gridSize : Option Nat
  blastRange : Option Nat
  defaultHearingRadius : Option Nat
  memoryTTL : Option Nat
  maxActiveBombs : Option Nat
  maxBombsPerTurn : Option Nat
  timersAllowed : Option Bool
  chainReactions : Option Bool
  undoEnabled : Option Bool
deriving DecidableEq, Repr

/-- A level descriptor as consumed by the Level constructor (the legacy
ASCII layout branch is not modelled: all descriptors used here carry a
grid array). -/
structure LevelData where
  config : ConfigData
  guards : List GuardData
  targets : List TargetData
  grid : List (List Nat)
deriving DecidableEq, Repr

/-- The object spread {...DEFAULT_CONFIG, ...levelData.config}. -/
def mergeConfig (cd : ConfigData) : Config :=
  { gridSize := cd.gridSize.getD DEFAULT_CONFIG.gridSize
    blastRange := cd.blastRange.getD DEFAULT_CONFIG.blastRange
    defaultHearingRadius := cd.defaultHearingRadius.getD DEFAULT_CONFIG.defaultHearingRadius
    memoryTTL := cd.memoryTTL.getD DEFAULT_CONFIG.memoryTTL
    maxActiveBombs := cd.maxActiveBombs
    maxBombsPerTurn := cd.maxBombsPerTurn.getD DEFAULT_CONFIG.maxBombsPerTurn
    timersAllowed := cd.timersAllowed.getD false
    chainReactions := cd.chainReactions.getD DEFAULT_CONFIG.chainReactions
    undoEnabled := cd.undoEnabled.getD DEFAULT_CONFIG.undoEnabled }

/-- The copy loop of initializeFromData: overlay the descriptor grid onto
the empty grid, both loops bounded by the unclamped config.gridSize. -/
def overlayGrid (cfgGs : Nat) (base src : List (List Nat)) : List (List Nat) :=
  base.enum.map fun yr =>
    if yr.1 < min src.length cfgGs then
      let srow := src.getD yr.1 []
      yr.2.enum.map fun xr =>
        if xr.1 < min srow.length cfgGs then srow.getD xr.1 Tile.VOID else xr.2
    else yr.2

/-- The Level constructor plus initializeFromData: build the empty Void
grid of clamped size (a falsy gridSize of 0 falls back to the default),
overlay the descriptor grid, and load targets and guards with index ids.
A guard with the falsy hearingRadius 0 or with no hearingRadius receives
config.defaultHearingRadius.  No validation of any kind is performed. -/
def Level.create (d : LevelData) : Level :=
  let config := mergeConfig d.config
  let gs := min (if config.gridSize = 0 then DEFAULT_CONFIG.gridSize else config.gridSize) 64
  let base := List.replicate gs (List.replicate gs Tile.VOID)
  let grid := overlayGrid config.gridSize base d.grid
  let targets := d.targets.enum.map fun it =>
    { id := it.1, pos := ⟨it.2.x, it.2.y⟩, destroyed := false }
  let guards := d.guards.enum.map fun ig =>
    { id := ig.1, pos := ⟨ig.2.x, ig.2.y⟩,
      hearingRadius :=
        match ig.2.hearingRadius with
        | some r => if r = 0 then config.defaultHearingRadius else r
        | none => config.defaultHearingRadius
      memory := none, targetPos := none }
  { grid := grid, targets := targets, guards := guards, config := config }

/-- Game.loadLevel: install the freshly built level with empty bombs, turn
0 and the playing state. -/
def Game.loadLevel (d : LevelData) : Game :=
  { level := Level.create d, bombs := [], turnIndex := 0,
    gameState := GState.playing, bombIdCounter := 0 }

/-- A guard row of the level editor. -/
structure EditorGuard where
  id : Nat
  x : Int
  y : Int
  hearingRadius : Nat
deriving DecidableEq, Repr

/-- The guard-loading step of LevelEditor.importLevel (JSON parsing is
modelled as the identity on the structured data): the falsy-default
expression guard.hearingRadius || 8. -/
def editorImportGuards (gds : List GuardData) : List EditorGuard :=
  gds.enum.map fun ig =>
    { id := ig.1, x := ig.2.x, y := ig.2.y,
      hearingRadius :=
        match ig.2.hearingRadius with
        | some r => if r = 0 then 8 else r
        | none => 8 }

/-- The guard-serialising step of LevelEditor.exportLevel: hearingRadius
is written out unchanged. -/
def editorExportGuards (gs : List EditorGuard) : List GuardData :=
  gs.map fun g => { x := g.x, y := g.y, hearingRadius := some g.hearingRadius }

/-- A four-directional path of n hops from a to b in which every cell that
is entered is passable; the start cell itself is never tested by the
search, so it is unconstrained here as well. -/
inductive PathLen (l : Level) : Vec → Vec → Nat → Prop
  | nil (a : Vec) : PathLen l a a 0
  | cons {a c : Vec} {n : Nat} (b : Vec) (hb : b ∈ nbrs a)
      (hp : l.isPassable b = true) (hrest : PathLen l b c n) : PathLen l a c (n + 1)

/-- Reachability through passable cells. -/
def Reach (l : Level) (a b : Vec) : Prop := ∃ n, PathLen l a b n

/-- Modelled from the spec: one ray of the orthogonal ray-cast cross that
the product specification mandates, extending up to the remaining range
and stopping before the first Wall cell. -/
def crossRay (l : Level) (p d : Vec) : Nat → List Vec
  | 0 => []
  | k + 1 =>
    let q := p.add d
    if l.getTile q == Tile.WALL then [] else q :: crossRay l q d k

/-- Modelled from the spec: the claimed blast contract of section 4.7, an
orthogonal cross of four rays of length blastRange around the bomb cell.
This is the specification side of claim C3; the code side is
calculateBlastTiles. -/
def crossBlastSpec (l : Level) (bombPos : Vec) (range : Nat) : List Vec :=
  bombPos :: directions.flatMap (fun d => crossRay l bombPos d range)

/-- A 6 by 6 test level: a corridor along y = 1 from x = 1 to x = 4 with a
side cell at (1, 2); two guards with distinct Floor start cells. -/
def lvC1 : Level :=
  { grid := [
      [2, 2, 2, 2, 2, 2],
      [2, 0, 0, 0, 0, 2],
      [2, 0, 2, 2, 2, 2],
      [2, 2, 2, 2, 2, 2],
      [2, 2, 2, 2, 2, 2],
      [2, 2, 2, 2, 2, 2]],
    targets := [⟨0, ⟨1, 2⟩, false⟩],
    guards := [⟨0, ⟨1, 1⟩, 8, none, none⟩, ⟨1, ⟨1, 2⟩, 8, none, none⟩],
    config := { DEFAULT_CONFIG with gridSize := 6, timersAllowed := false } }

/-- The game state of the C1 scenario: one timerless bomb at (4, 1) about
to detonate on the next resolved turn. -/
def gmC1 : Game :=
  { level := lvC1,
    bombs := [⟨0, ⟨4, 1⟩, false, 1, BombSt.ticking, 0⟩],
    turnIndex := 0, gameState := GState.playing, bombIdCounter := 1 }

/-- Guard A of the arbiter scenarios. -/
def gA : Guard := ⟨0, ⟨1, 1⟩, 8, none, none⟩

/-- Guard B of the arbiter scenarios. -/
def gB : Guard := ⟨1, ⟨1, 2⟩, 8, none, none⟩

/-- Proposal list: A moves east, B moves onto the current cell of A. -/
def propsAB : List (Nat × Vec) := [(0, ⟨2, 1⟩), (1, ⟨1, 1⟩)]

/-- The same proposal set in the opposite iteration order. -/
def propsBA : List (Nat × Vec) := [(1, ⟨1, 1⟩), (0, ⟨2, 1⟩)]

/-- A 9 by 9 level of pure Floor, used for the blast-shape comparison. -/
def lvOpen : Level :=
  { grid := List.replicate 9 (List.replicate 9 0), targets := [], guards := [],
    config := { DEFAULT_CONFIG with gridSize := 9 } }

/-- The five-cell corridor of the section 8 scenario, no walls. -/
def lvCor1 : Level :=
  { grid := [[0, 0, 0, 0, 0]], targets := [], guards := [],
    config := { DEFAULT_CONFIG with gridSize := 5 } }

/-- The same corridor with a Wall at x = 3. -/
def lvCor2 : Level :=
  { grid := [[0, 0, 0, 1, 0]], targets := [], guards := [],
    config := { DEFAULT_CONFIG with gridSize := 5 } }

/-- A 2 by 2 all-Floor level with an active-bomb cap of 5. -/
def lvP : Level :=
  { grid := [[0, 0], [0, 0]], targets := [], guards := [],
    config := { DEFAULT_CONFIG with gridSize := 2, maxActiveBombs := some 5 } }

/-- A game with one bomb already sitting at (0, 0), placed on an earlier
turn. -/
def gmP : Game :=
  { level := lvP, bombs := [⟨0, ⟨0, 0⟩, false, 1, BombSt.ticking, 0⟩],
    turnIndex := 1, gameState := GState.playing, bombIdCounter := 1 }

/-- A game on the open level with three live bombs and no active-bomb cap
in its config. -/
def gmC9 : Game :=
  { level := lvOpen,
    bombs := [⟨0, ⟨1, 1⟩, false, 1, BombSt.ticking, 0⟩,
              ⟨1, ⟨2, 2⟩, false, 1, BombSt.ticking, 0⟩,
              ⟨2, ⟨3, 3⟩, false, 1, BombSt.ticking, 0⟩],
    turnIndex := 1, gameState := GState.playing, bombIdCounter := 3 }

/-- A level descriptor whose only guard sits on a Wall cell. -/
def badLevelData : LevelData :=
  { config := ⟨some 4, none, none, none, none, none, none, none, none⟩,
    guards := [⟨1, 1, none⟩],
    targets := [⟨2, 1⟩],
    grid := [[0, 0, 0, 0], [0, 1, 0, 0], [0, 0, 0, 0], [0, 0, 0, 0]] }

/-- Order-free characterization of the arbiter used in the C2 analysis: a
guard with a proposal moves exactly when it is the sole claimant of its
destination.  It agrees with resolveMovementConflicts whenever no guard
proposes the current cell of another guard. -/
def simpleResolve (guards : List Guard) (proposals : List (Nat × Vec)) : List Guard :=
  guards.map fun g =>
    match lookupM proposals g.id with
    | none => g
    | some d => if 1 < (claimants proposals d).length then g else { g with pos := d }

/-- Invariant of the getNextStep search nodes: the root node (first step
absent) sits at the start cell, and any recorded first step is passable. -/
def SNodeOK (l : Level) (s : Vec) (nd : SNode) : Prop :=
  (nd.first = none → nd.pos = s) ∧ ∀ f, nd.first = some f → l.isPassable f = true

/-- A descriptor whose single guard explicitly specifies hearingRadius 0. -/
def c10data : LevelData :=
  { config := ⟨some 4, none, none, none, none, none, none, none, none⟩,
    guards := [⟨1, 1, some 0⟩], targets := [],
    grid := [[0, 0], [0, 0]] }

/-- The bomb that a successful placeBomb call constructs. -/
def newBombOf (g : Game) (pos : Vec) : Bomb :=
  ⟨g.bombIdCounter, pos, g.level.config.timersAllowed,
    if g.level.config.timersAllowed then 3 else 1, BombSt.ticking, g.turnIndex⟩

/-- The square grid box of side gs as a finite set of positions; every
passable cell lies in it. -/
def boxF (gs : Nat) : Finset Vec :=
  (Finset.Ico (0 : Int) gs ×ˢ Finset.Ico (0 : Int) gs).image (fun q => ⟨q.1, q.2⟩)

/-- Loop invariant of the getPathDistance search, holding at every entry to
astarLoop after the first iteration: the closed set is duplicate free,
contains the start and not the goal, and every closed cell carries its
exact shortest path distance in gScore and has all its unclosed passable
neighbours on the frontier; frontier nodes sit on pairwise distinct
unclosed cells, are sound (their g is a realized path length), and agree
with gScore; gScore stores 0 only at the start (which makes the JS
falsy-zero read gScore.get(k) or Infinity inert), and every gScore key is
closed or on the frontier. -/
structure AInv (l : Level) (s e : Vec) (st : SearchSt) : Prop where
  closed_nodup : st.closed.Nodup
  s_closed : s ∈ st.closed
  e_unclosed : e ∉ st.closed
  front_unclosed : ∀ nd ∈ st.frontier, nd.pos ∉ st.closed
  front_nodup : (st.frontier.map ANode.pos).Nodup
  front_sound : ∀ nd ∈ st.frontier, PathLen l s nd.pos nd.g
  front_pass : ∀ nd ∈ st.frontier, nd.pos = s ∨ l.isPassable nd.pos = true
  front_gmap : ∀ nd ∈ st.frontier, lookupA st.gmap nd.pos = some nd.g
  gmap_zero : ∀ p, lookupA st.gmap p = some 0 → p = s
  gmap_cover : ∀ p g, lookupA st.gmap p = some g →
    p ∈ st.closed ∨ ∃ nd ∈ st.frontier, nd.pos = p ∧ nd.g = g
  closed_opt : ∀ p ∈ st.closed, ∃ gp, lookupA st.gmap p = some gp ∧
    PathLen l s p gp ∧ ∀ m, PathLen l s p m → gp ≤ m
  closed_exp : ∀ p ∈ st.closed, ∀ gp, lookupA st.gmap p = some gp →
    ∀ d ∈ directions, l.isPassable (p.add d) = true → p.add d ∉ st.closed →
    ∃ nd ∈ st.frontier, nd.pos = p.add d ∧ nd.g ≤ gp + 1
  closed_pass : ∀ p ∈ st.closed, p = s ∨ l.isPassable p = true

/-- The invariant holding while the popped node cur is being expanded: like
AInv, but the expansion guarantee is only required for closed cells other
than the cell of cur (it is restored for cur once all four directions have
been relaxed), and cur itself is recorded as closed with its gScore. -/
structure MidInv (l : Level) (s e : Vec) (cur : ANode) (st : SearchSt) : Prop where
  closed_nodup : st.closed.Nodup
  s_closed : s ∈ st.closed
  e_unclosed : e ∉ st.closed
  front_unclosed : ∀ nd ∈ st.frontier, nd.pos ∉ st.closed
  front_nodup : (st.frontier.map ANode.pos).Nodup
  front_sound : ∀ nd ∈ st.frontier, PathLen l s nd.pos nd.g
  front_pass : ∀ nd ∈ st.frontier, nd.pos = s ∨ l.isPassable nd.pos = true
  front_gmap : ∀ nd ∈ st.frontier, lookupA st.gmap nd.pos = some nd.g
  gmap_zero : ∀ p, lookupA st.gmap p = some 0 → p = s
  gmap_cover : ∀ p g, lookupA st.gmap p = some g →
    p ∈ st.closed ∨ ∃ nd ∈ st.frontier, nd.pos = p ∧ nd.g = g
  closed_opt : ∀ p ∈ st.closed, ∃ gp, lookupA st.gmap p = some gp ∧
    PathLen l s p gp ∧ ∀ m, PathLen l s p m → gp ≤ m
  closed_exp : ∀ p ∈ st.closed, p ≠ cur.pos → ∀ gp, lookupA st.gmap p = some gp →
    ∀ d ∈ directions, l.isPassable (p.add d) = true → p.add d ∉ st.closed →
    ∃ nd ∈ st.frontier, nd.pos = p.add d ∧ nd.g ≤ gp + 1
  closed_pass : ∀ p ∈ st.closed, p = s ∨ l.isPassable p = true
  cur_closed : cur.pos ∈ st.closed
  cur_gmap : lookupA st.gmap cur.pos = some cur.g

/-!
Theorems settling the claims, preceded by general helper lemmas.
-/

theorem enumFrom_map_comp {α β γ : Type} (f : Nat × α → β) (h : β → γ) (g : α → γ)
    (hfg : ∀ i a, h (f (i, a)) = g a) :
    ∀ (l : List α) (n : Nat), ((List.enumFrom n l).map f).map h = l.map g := by
  intro l
  induction l with
  | nil => intro n; rfl
  | cons a t ih =>
    intro n
    simp only [List.enumFrom, List.map_cons, hfg, ih]

theorem enumFrom_map_getElem? {α β : Type} (f : Nat × α → β) :
    ∀ (l : List α) (n i : Nat),
      ((List.enumFrom n l).map f)[i]? = (l[i]?).map (fun a => f (n + i, a)) := by
  intro l
  induction l with
  | nil => intro n i; simp
  | cons a t ih =>
    intro n i
    cases i with
    | zero => simp [List.enumFrom]
    | succ j =>
      simp only [List.enumFrom, List.map_cons, List.getElem?_cons_succ, ih]
      have : n + (j + 1) = n + 1 + j := by omega
      rw [this]

theorem canPlaceBomb_false_iff (l : Level) (pos : Vec) :
    l.canPlaceBomb pos = false ↔
      ((l.isValidPosition pos && l.getTile pos == Tile.FLOOR) = false ∨
        l.isOccupiedByTarget pos = true ∨ l.isOccupiedByGuard pos = true) := by
  unfold Level.canPlaceBomb
  cases hv : l.isValidPosition pos <;>
    cases ht : l.getTile pos == Tile.FLOOR <;>
      cases hT : l.isOccupiedByTarget pos <;>
        cases hG : l.isOccupiedByGuard pos <;> simp

/-- C6 counterexample: a cell already holding a bomb is not rejected.  In
gmP the cell (0, 0) carries a live bomb, every other rejection cause is
absent, and placeBomb succeeds, leaving two bombs stacked on one cell. -/
theorem C6_counterexample :
    gmP.bombs.map Bomb.pos = [⟨0, 0⟩] ∧
    (gmP.placeBomb ⟨0, 0⟩).1 = true ∧
    (gmP.placeBomb ⟨0, 0⟩).2.bombs.map Bomb.pos = [⟨0, 0⟩, ⟨0, 0⟩] := by
  decide

theorem placeBomb_spec_aux (g : Game) (pos : Vec) :
    ((g.placeBomb pos).1 = false ↔
      ((g.level.isValidPosition pos && g.level.getTile pos == Tile.FLOOR) = false ∨
        g.level.isOccupiedByTarget pos = true ∨
        g.level.isOccupiedByGuard pos = true ∨
        (∃ m, g.level.config.maxActiveBombs = some m ∧ m ≤ g.bombs.length) ∨
        g.level.config.maxBombsPerTurn ≤
          (g.bombs.filter (fun b => b.turnPlaced == g.turnIndex)).length)) ∧
    ((g.placeBomb pos).1 = false → (g.placeBomb pos).2 = g) ∧
    ((g.placeBomb pos).1 = true →
      (g.placeBomb pos).2.bombs = g.bombs ++
        [⟨g.bombIdCounter, pos, g.level.config.timersAllowed,
          if g.level.config.timersAllowed then 3 else 1, BombSt.ticking, g.turnIndex⟩]) := by
  have hTF : ∀ p : Prop, ∀ q : Bool × Game,
      q.1 = true → ((q.1 = false ↔ p) ↔ ¬ p) := by
    intro p q hq
    rw [hq]
    simp
  rcases hcs : g.level.canPlaceBomb pos with _ | _
  · have hres : g.placeBomb pos = (false, g) := by
      simp [Game.placeBomb, hcs]
    rw [hres]
    rw [canPlaceBomb_false_iff] at hcs
    refine ⟨⟨fun _ => by tauto, fun _ => rfl⟩, fun _ => rfl, fun h => absurd h (by simp)⟩
  · have hcomp : g.level.isValidPosition pos = true ∧ g.level.getTile pos = Tile.FLOOR ∧
        g.level.isOccupiedByTarget pos = false ∧ g.level.isOccupiedByGuard pos = false := by
      have := hcs
      unfold Level.canPlaceBomb at this
      simp only [Bool.and_eq_true, Bool.not_eq_true', beq_iff_eq] at this
      tauto
    rcases hm : g.level.config.maxActiveBombs with _ | m
    · by_cases hpt : g.level.config.maxBombsPerTurn ≤
          (g.bombs.filter (fun b => b.turnPlaced == g.turnIndex)).length
      · have hres : g.placeBomb pos = (false, g) := by
          simp [Game.placeBomb, hcs, hm, hpt]
        rw [hres]
        refine ⟨⟨fun _ => by tauto, fun _ => rfl⟩, fun _ => rfl, fun h => absurd h (by simp)⟩
      · have hres : g.placeBomb pos =
            (true, { g with bombs := g.bombs ++ [newBombOf g pos], bombIdCounter := g.bombIdCounter + 1 }) := by
          simp [Game.placeBomb, hcs, hm, hpt, newBombOf]
        rw [hres]
        refine ⟨(hTF _ _ rfl).mpr ?_, fun h => absurd h (by simp), fun _ => rfl⟩
        intro h
        rcases h with h | h | h | ⟨m2, hm2, _⟩ | h
        · rw [hcomp.1, Bool.true_and] at h
          simp only [beq_eq_false_iff_ne, ne_eq] at h
          exact h hcomp.2.1
        · exact absurd h (by simp [hcomp.2.2.1])
        · exact absurd h (by simp [hcomp.2.2.2])
        · exact absurd hm2 (by simp [hm])
        · exact hpt h
    · by_cases hcap : m ≤ g.bombs.length
      · have hres : g.placeBomb pos = (false, g) := by
          simp [Game.placeBomb, hcs, hm, hcap]
        rw [hres]
        refine ⟨⟨fun _ => Or.inr (Or.inr (Or.inr (Or.inl ⟨m, rfl, hcap⟩))), fun _ => rfl⟩,
          fun _ => rfl, fun h => absurd h (by simp)⟩
      · by_cases hpt : g.level.config.maxBombsPerTurn ≤
            (g.bombs.filter (fun b => b.turnPlaced == g.turnIndex)).length
        · have hres : g.placeBomb pos = (false, g) := by
            simp [Game.placeBomb, hcs, hm, hcap, hpt]
          rw [hres]
          refine ⟨⟨fun _ => by tauto, fun _ => rfl⟩, fun _ => rfl, fun h => absurd h (by simp)⟩
        · have hres : g.placeBomb pos =
              (true, { g with bombs := g.bombs ++ [newBombOf g pos], bombIdCounter := g.bombIdCounter + 1 }) := by
            simp [Game.placeBomb, hcs, hm, hcap, hpt, newBombOf]
          rw [hres]
          refine ⟨(hTF _ _ rfl).mpr ?_, fun h => absurd h (by simp), fun _ => rfl⟩
          intro h
          rcases h with h | h | h | ⟨m2, hm2, hle⟩ | h
          · rw [hcomp.1, Bool.true_and] at h
            simp only [beq_eq_false_iff_ne, ne_eq] at h
            exact h hcomp.2.1
          · exact absurd h (by simp [hcomp.2.2.1])
          · exact absurd h (by simp [hcomp.2.2.2])
          · cases hm2
            exact hcap hle
          · exact hpt h

/-- C6 amended: placeBomb rejects, with no state change, exactly when the
position is not an in-bounds Floor cell, or is occupied by a live target
or a guard (existing bombs are NOT checked: a bomb may be stacked on a
bomb), or the active-bomb cap is reached, or the per-turn cap is reached;
otherwise it succeeds and appends exactly one new ticking bomb. -/
theorem C6_placeBomb_spec (g : Game) (pos : Vec) :
    ((g.placeBomb pos).1 = false ↔
      ((g.level.isValidPosition pos && g.level.getTile pos == Tile.FLOOR) = false ∨
        g.level.isOccupiedByTarget pos = true ∨
        g.level.isOccupiedByGuard pos = true ∨
        (∃ m, g.level.config.maxActiveBombs = some m ∧ m ≤ g.bombs.length) ∨
        g.level.config.maxBombsPerTurn ≤
          (g.bombs.filter (fun b => b.turnPlaced == g.turnIndex)).length)) ∧
    ((g.placeBomb pos).1 = false → (g.placeBomb pos).2 = g) ∧
    ((g.placeBomb pos).1 = true →
      (g.placeBomb pos).2.bombs = g.bombs ++
        [⟨g.bombIdCounter, pos, g.level.config.timersAllowed,
          if g.level.config.timersAllowed then 3 else 1, BombSt.ticking, g.turnIndex⟩]) :=
  placeBomb_spec_aux g pos

/-- C6 witness: on the concrete state gmP a placement on the bombed cell
(0, 0) succeeds and appends exactly one bomb. -/
theorem C6_witness :
    (gmP.placeBomb ⟨0, 0⟩).2.bombs = gmP.bombs ++
      [⟨gmP.bombIdCounter, ⟨0, 0⟩, gmP.level.config.timersAllowed,
        if gmP.level.config.timersAllowed then 3 else 1, BombSt.ticking, gmP.turnIndex⟩] :=
  (C6_placeBomb_spec gmP ⟨0, 0⟩).2.2 (by decide)

/-- C9: the built-in DEFAULT_CONFIG defines no maxActiveBombs, and for any
state whose level config leaves maxActiveBombs absent, placeBomb rejects
exactly for the placement conditions or the per-turn cap: the active-bomb
count never causes a rejection. -/
theorem C9_no_active_cap (g : Game) (pos : Vec)
    (h : g.level.config.maxActiveBombs = none) :
    DEFAULT_CONFIG.maxActiveBombs = none ∧
    ((g.placeBomb pos).1 = false ↔
      (g.level.canPlaceBomb pos = false ∨
        g.level.config.maxBombsPerTurn ≤
          (g.bombs.filter (fun b => b.turnPlaced == g.turnIndex)).length)) := by
  refine ⟨rfl, ?_⟩
  rw [(placeBomb_spec_aux g pos).1, canPlaceBomb_false_iff]
  constructor
  · rintro (h1 | h1 | h1 | ⟨m, hm, _⟩ | h1)
    · exact Or.inl (Or.inl h1)
    · exact Or.inl (Or.inr (Or.inl h1))
    · exact Or.inl (Or.inr (Or.inr h1))
    · rw [h] at hm
      cases hm
    · exact Or.inr h1
  · rintro ((h1 | h1 | h1) | h1)
    · exact Or.inl h1
    · exact Or.inr (Or.inl h1)
    · exact Or.inr (Or.inr (Or.inl h1))
    · exact Or.inr (Or.inr (Or.inr (Or.inr h1)))

/-- C9 witness: gmC9 has three live bombs and no cap; rejection on it is
equivalent to the placement conditions or the per-turn cap alone. -/
theorem C9_witness :
    DEFAULT_CONFIG.maxActiveBombs = none ∧
    ((gmC9.placeBomb ⟨0, 0⟩).1 = false ↔
      (gmC9.level.canPlaceBomb ⟨0, 0⟩ = false ∨
        gmC9.level.config.maxBombsPerTurn ≤
          (gmC9.bombs.filter (fun b => b.turnPlaced == gmC9.turnIndex)).length)) :=
  C9_no_active_cap gmC9 ⟨0, 0⟩ rfl

/-- C7 counterexample: badLevelData places its only guard on a Wall cell,
yet loadLevel silently yields a playable (playing) level that carries that
guard; no validation failure of any kind occurs. -/
theorem C7_counterexample :
    (Game.loadLevel badLevelData).gameState = GState.playing ∧
    (Game.loadLevel badLevelData).level.guards.map Guard.pos = [⟨1, 1⟩] ∧
    (Game.loadLevel badLevelData).level.getTile ⟨1, 1⟩ = Tile.WALL ∧
    (Game.loadLevel badLevelData).level.isPassable ⟨1, 1⟩ = false := by
  decide

/-- C7 amended: loadLevel performs no validation at all: every structured
descriptor loads into a playing game whose guards and targets are taken
verbatim (positions preserved), wherever they sit. -/
theorem C7_loadLevel_no_validation (d : LevelData) :
    (Game.loadLevel d).gameState = GState.playing ∧
    (Game.loadLevel d).level.guards.map Guard.pos =
      d.guards.map (fun gd => ⟨gd.x, gd.y⟩) ∧
    (Game.loadLevel d).level.targets.map Target.pos =
      d.targets.map (fun td => ⟨td.x, td.y⟩) ∧
    (Game.loadLevel d).bombs = [] ∧ (Game.loadLevel d).turnIndex = 0 := by
  refine ⟨rfl, ?_, ?_, rfl, rfl⟩
  · simp only [Game.loadLevel, Level.create, List.enum]
    exact enumFrom_map_comp _ Guard.pos _ (fun i a => rfl) d.guards 0
  · simp only [Game.loadLevel, Level.create, List.enum]
    exact enumFrom_map_comp _ Target.pos _ (fun i a => rfl) d.targets 0

/-- C8 counterexample: in the no-wall corridor the blast of the bomb at
(2, 0) is not exactly the corridor cells x = 0..4: it also contains the
Void cell (2, 1) below the corridor (likewise with the wall present), so
the claimed set equalities fail. -/
theorem C8_counterexample :
    (calculateBlastTiles lvCor1 ⟨2, 0⟩).contains ⟨2, 1⟩ = true ∧
    lvCor1.getTile ⟨2, 1⟩ = Tile.VOID ∧
    (calculateBlastTiles lvCor2 ⟨2, 0⟩).contains ⟨2, 1⟩ = true := by
  decide

/-- C8 amended: restricted to the corridor row y = 0, the blast of the
bomb at x = 2 with blastRange 3 is exactly x in 0..4 without the wall, and
exactly x in 0..3 with the Wall at x = 3 (the east ray is stopped by the
wall, whose own cell is still hit, while the west side is unaffected);
off-row cells within the circular radius are additionally included. -/
theorem C8_corridor_rows :
    (calculateBlastTiles lvCor1 ⟨2, 0⟩).filter (fun p => p.y == 0) =
      [⟨0, 0⟩, ⟨1, 0⟩, ⟨2, 0⟩, ⟨3, 0⟩, ⟨4, 0⟩] ∧
    (calculateBlastTiles lvCor2 ⟨2, 0⟩).filter (fun p => p.y == 0) =
      [⟨0, 0⟩, ⟨1, 0⟩, ⟨2, 0⟩, ⟨3, 0⟩] := by
  decide

theorem mem_intRange (len : Nat) : ∀ (a z : Int),
    (z ∈ intRange a len ↔ a ≤ z ∧ z < a + len) := by
  induction len with
  | zero => intro a z; simp [intRange]
  | succ n ih =>
    intro a z
    simp only [intRange, List.mem_cons, ih]
    omega

theorem mem_calculateCircularBlast (l : Level) (b : Vec) (r : Nat) (p : Vec) :
    p ∈ calculateCircularBlast l b r ↔
      ((p.x - b.x) * (p.x - b.x) + (p.y - b.y) * (p.y - b.y) ≤ (r : Int) * r ∧
        l.isValidPosition p = true ∧ hasLineOfSight l b p = true) := by
  unfold calculateCircularBlast
  simp only [List.mem_flatMap, List.mem_filterMap, mem_intRange]
  constructor
  · rintro ⟨x, hx, y, hy, hif⟩
    by_cases hc : (x - b.x) * (x - b.x) + (y - b.y) * (y - b.y) ≤ (r : Int) * r ∧
        l.isValidPosition ⟨x, y⟩ = true ∧ hasLineOfSight l b ⟨x, y⟩ = true
    · rw [if_pos hc] at hif
      cases hif
      exact hc
    · rw [if_neg hc] at hif
      cases hif
  · rintro ⟨hd, hv, hl⟩
    have hx : (p.x - b.x) ^ 2 ≤ (r : Int) ^ 2 := by nlinarith [mul_self_nonneg (p.y - b.y)]
    have hy : (p.y - b.y) ^ 2 ≤ (r : Int) ^ 2 := by nlinarith [mul_self_nonneg (p.x - b.x)]
    obtain ⟨hx1, hx2⟩ := abs_le_of_sq_le_sq' hx (by positivity)
    obtain ⟨hy1, hy2⟩ := abs_le_of_sq_le_sq' hy (by positivity)
    refine ⟨p.x, by omega, p.y, by omega, ?_⟩
    rw [if_pos ⟨hd, hv, hl⟩]

/-- C3 counterexample: on the open 9 by 9 Floor level with blastRange 3,
the computed blast of a bomb at (4, 4) contains the diagonal cell (5, 5),
which is not in the claimed orthogonal cross, and misses (7, 4), which the
cross (four rays of length blastRange) contains. -/
theorem C3_counterexample :
    (calculateBlastTiles lvOpen ⟨4, 4⟩).contains ⟨5, 5⟩ = true ∧
    (crossBlastSpec lvOpen ⟨4, 4⟩ lvOpen.config.blastRange).contains ⟨5, 5⟩ = false ∧
    (crossBlastSpec lvOpen ⟨4, 4⟩ lvOpen.config.blastRange).contains ⟨7, 4⟩ = true ∧
    (calculateBlastTiles lvOpen ⟨4, 4⟩).contains ⟨7, 4⟩ = false := by
  decide

/-- C3 amended: the blast set of a detonating bomb is not the orthogonal
cross; it is the circular disc of radius max 1 (blastRange - 1) clipped to
the grid and gated by line of sight: membership holds exactly for in-bounds
cells within that Euclidean radius that have line of sight to the bomb. -/
theorem C3_blast_is_disc_los (l : Level) (bombPos p : Vec) :
    p ∈ calculateBlastTiles l bombPos ↔
      ((p.x - bombPos.x) * (p.x - bombPos.x) + (p.y - bombPos.y) * (p.y - bombPos.y) ≤
          ((max 1 (l.config.blastRange - 1) : Nat) : Int) * (max 1 (l.config.blastRange - 1) : Nat) ∧
        l.isValidPosition p = true ∧ hasLineOfSight l bombPos p = true) := by
  unfold calculateBlastTiles
  exact mem_calculateCircularBlast l bombPos (max 1 (l.config.blastRange - 1)) p

/-- C10: an explicit hearingRadius of 0 in a guard entry is falsy and is
replaced by the configured default when the level loads; the level editor
importer applies the same falsy-default replacement with its default of 8,
so an exported hearing radius of 0 comes back as 8. -/
theorem C10_zero_hearing_radius :
    (∀ (d : LevelData) (i : Nat) (gd : GuardData),
      d.guards[i]? = some gd → gd.hearingRadius = some 0 →
      ∃ g, (Level.create d).guards[i]? = some g ∧
        g.hearingRadius = (mergeConfig d.config).defaultHearingRadius) ∧
    (∀ (egs : List EditorGuard) (i : Nat) (eg : EditorGuard),
      egs[i]? = some eg → eg.hearingRadius = 0 →
      ∃ eg2, (editorImportGuards (editorExportGuards egs))[i]? = some eg2 ∧
        eg2.hearingRadius = 8) := by
  constructor
  · intro d i gd hg hz
    have hmap : (Level.create d).guards[i]? =
        (d.guards[i]?).map (fun a =>
          ({ id := 0 + i
             pos := ⟨a.x, a.y⟩
             hearingRadius :=
               match a.hearingRadius with
               | some r => if r = 0 then (mergeConfig d.config).defaultHearingRadius else r
               | none => (mergeConfig d.config).defaultHearingRadius
             memory := none
             targetPos := none } : Guard)) := by
      simp only [Level.create, List.enum]
      exact enumFrom_map_getElem? _ d.guards 0 i
    rw [hmap, hg]
    obtain ⟨gx, gy, ghr⟩ := gd
    simp only at hz
    subst hz
    exact ⟨_, rfl, rfl⟩
  · intro egs i eg hg hz
    have hexp : (editorExportGuards egs)[i]? =
        (egs[i]?).map (fun g =>
          ({ x := g.x
             y := g.y
             hearingRadius := some g.hearingRadius } : GuardData)) := by
      simp only [editorExportGuards, List.getElem?_map]
    have hmap : (editorImportGuards (editorExportGuards egs))[i]? =
        ((editorExportGuards egs)[i]?).map (fun a =>
          ({ id := 0 + i
             x := a.x
             y := a.y
             hearingRadius :=
               match a.hearingRadius with
               | some r => if r = 0 then 8 else r
               | none => 8 } : EditorGuard)) := by
      simp only [editorImportGuards, List.enum]
      exact enumFrom_map_getElem? _ (editorExportGuards egs) 0 i
    rw [hmap, hexp, hg]
    obtain ⟨gid, gx, gy, ghr⟩ := eg
    simp only at hz
    subst hz
    exact ⟨_, rfl, rfl⟩

/-- C10 witness: the concrete descriptor c10data and a concrete editor
guard row, both with hearing radius 0, receive the defaults on load and on
export-then-import respectively. -/
theorem C10_witness :
    (∃ g, (Level.create c10data).guards[0]? = some g ∧
      g.hearingRadius = (mergeConfig c10data.config).defaultHearingRadius) ∧
    (∃ eg2, (editorImportGuards (editorExportGuards [⟨0, 3, 3, 0⟩]))[0]? = some eg2 ∧
      eg2.hearingRadius = 8) :=
  ⟨C10_zero_hearing_radius.1 c10data 0 ⟨1, 1, some 0⟩ (by decide) rfl,
   C10_zero_hearing_radius.2 [⟨0, 3, 3, 0⟩] 0 ⟨0, 3, 3, 0⟩ (by decide) rfl⟩

/-- C1 counterexample: gmC1 has two guards on distinct Floor cells, yet
after one simulateTurn both occupy (1, 1): guard 0 is reset to its current
cell by the conflict pass (guard 1 proposed that cell), while the later
iteration for guard 1 overwrites its own entry and still moves it there. -/
theorem C1_counterexample :
    gmC1.level.guards.map Guard.pos = [⟨1, 1⟩, ⟨1, 2⟩] ∧
    (∀ g ∈ gmC1.level.guards, gmC1.level.isPassable g.pos = true) ∧
    gmC1.simulateTurn.level.guards.map Guard.pos = [⟨1, 1⟩, ⟨1, 1⟩] := by
  decide

/-- C2 counterexample: the same proposal set in two iteration orders gives
different final positions: with guard 0 first, both guards end on (1, 1);
with guard 1 first, guard 1 is kept at (1, 2). -/
theorem C2_counterexample :
    propsAB.Perm propsBA ∧
    (resolveMovementConflicts [gA, gB] propsAB).map Guard.pos = [⟨1, 1⟩, ⟨1, 1⟩] ∧
    (resolveMovementConflicts [gA, gB] propsBA).map Guard.pos = [⟨1, 1⟩, ⟨1, 2⟩] := by
  refine ⟨List.Perm.swap _ _ _, by decide, by decide⟩

theorem lookupM_setM_self {ν : Type} (m : List (Nat × ν)) (k : Nat) (v : ν) :
    lookupM (setM m k v) k = some v := by
  induction m with
  | nil => simp [setM, lookupM]
  | cons pr rest ih =>
    by_cases h : pr.1 = k
    · simp [setM, h, lookupM]
    · obtain ⟨k2, v2⟩ := pr
      simp only at h
      simp [setM, h, lookupM, ih]

theorem lookupM_setM_ne {ν : Type} (m : List (Nat × ν)) (k k2 : Nat) (v : ν)
    (h : k2 ≠ k) : lookupM (setM m k v) k2 = lookupM m k2 := by
  induction m with
  | nil =>
    show (if k = k2 then some v else none) = none
    rw [if_neg fun hh => h hh.symm]
  | cons pr rest ih =>
    obtain ⟨k3, v3⟩ := pr
    by_cases h3 : k3 = k
    · subst h3
      simp only [setM, if_pos rfl, lookupM]
      rw [if_neg fun hh => h hh.symm, if_neg fun hh => h hh.symm]
    · simp only [setM, if_neg h3, lookupM]
      by_cases h4 : k3 = k2
      · rw [if_pos h4, if_pos h4]
      · rw [if_neg h4, if_neg h4, ih]

theorem mem_keys_iff_lookup {ν : Type} (m : List (Nat × ν)) (k : Nat) :
    k ∈ m.map Prod.fst ↔ ∃ v, lookupM m k = some v := by
  induction m with
  | nil => simp [lookupM]
  | cons pr rest ih =>
    obtain ⟨k2, v2⟩ := pr
    simp only [List.map_cons, List.mem_cons, lookupM]
    by_cases h : k2 = k
    · subst h
      rw [if_pos rfl]
      simp
    · rw [if_neg h, ← ih]
      constructor
      · rintro (rfl | hm)
        · exact absurd rfl h
        · exact hm
      · exact Or.inr

theorem lookupM_eq_some_iff_mem {ν : Type} {m : List (Nat × ν)}
    (hk : (m.map Prod.fst).Nodup) (k : Nat) (v : ν) :
    lookupM m k = some v ↔ (k, v) ∈ m := by
  induction m with
  | nil => simp [lookupM]
  | cons pr rest ih =>
    obtain ⟨k2, v2⟩ := pr
    simp only [List.map_cons, List.nodup_cons] at hk
    simp only [lookupM, List.mem_cons, Prod.mk.injEq]
    by_cases h : k2 = k
    · subst h
      rw [if_pos rfl]
      constructor
      · rintro hsome
        exact Or.inl ⟨rfl, (Option.some_inj.mp hsome).symm⟩
      · rintro (⟨_, rfl⟩ | hmem)
        · rfl
        · exact absurd ((mem_keys_iff_lookup rest k2).mpr
            ⟨v, ((ih hk.2).mpr hmem)⟩) hk.1
    · rw [if_neg h, ih hk.2]
      constructor
      · exact Or.inr
      · rintro (⟨rfl, rfl⟩ | hmem)
        · exact absurd rfl h
        · exact hmem

theorem find?_guard_nodup (guards : List Guard)
    (h : (guards.map Guard.id).Nodup) (g : Guard) (hg : g ∈ guards) :
    guards.find? (fun x => x.id == g.id) = some g := by
  induction guards with
  | nil => cases hg
  | cons a rest ih =>
    simp only [List.map_cons, List.nodup_cons] at h
    rcases List.mem_cons.mp hg with rfl | hmem
    · simp [List.find?]
    · have hne : a.id ≠ g.id := by
        intro he
        exact h.1 (he ▸ List.mem_map_of_mem Guard.id hmem)
      simp only [List.find?, beq_eq_false_iff_ne.mpr hne]
      exact ih h.2 hmem

theorem foldl_setM_lookup_notmem {ν : Type} (f : Nat × Vec → ν) :
    ∀ (props : List (Nat × Vec)) (vm0 : List (Nat × ν)) (k : Nat),
      k ∉ props.map Prod.fst →
      lookupM (props.foldl (fun vm pr => setM vm pr.1 (f pr)) vm0) k = lookupM vm0 k := by
  intro props
  induction props with
  | nil => intro vm0 k _; rfl
  | cons pr rest ih =>
    intro vm0 k hk
    simp only [List.map_cons, List.mem_cons, not_or] at hk
    simp only [List.foldl_cons]
    rw [ih _ k hk.2, lookupM_setM_ne _ _ _ _ hk.1]

theorem foldl_setM_lookup_mem {ν : Type} (f : Nat × Vec → ν) :
    ∀ (props : List (Nat × Vec)) (vm0 : List (Nat × ν)) (k : Nat) (v : Vec),
      (props.map Prod.fst).Nodup → lookupM props k = some v →
      lookupM (props.foldl (fun vm pr => setM vm pr.1 (f pr)) vm0) k = some (f (k, v)) := by
  intro props
  induction props with
  | nil => intro vm0 k v _ hl; cases hl
  | cons pr rest ih =>
    intro vm0 k v hk hl
    obtain ⟨k2, v2⟩ := pr
    simp only [List.map_cons, List.nodup_cons] at hk
    simp only [lookupM] at hl
    by_cases h : k2 = k
    · subst h
      rw [if_pos rfl] at hl
      cases Option.some_inj.mp hl
      simp only [List.foldl_cons]
      rw [foldl_setM_lookup_notmem f rest _ k2 hk.1, lookupM_setM_self]
    · rw [if_neg h] at hl
      simp only [List.foldl_cons]
      exact ih _ k v hk.2 hl

theorem resolve_eq_simple (guards : List Guard) (props : List (Nat × Vec))
    (hids : (guards.map Guard.id).Nodup)
    (hkeys : (props.map Prod.fst).Nodup)
    (hmem : ∀ pr ∈ props, ∃ g ∈ guards, g.id = pr.1)
    (hnosteal : ∀ pr ∈ props, ∀ g ∈ guards, g.id ≠ pr.1 → pr.2 ≠ g.pos) :
    resolveMovementConflicts guards props = simpleResolve guards props := by
  unfold resolveMovementConflicts simpleResolve
  have hstep : ∀ (vm : List (Nat × Vec)) (pr : Nat × Vec), pr ∈ props →
      (match guards.find? (fun g => g.id == pr.1) with
        | none => vm
        | some guard =>
          if 1 < (claimants props pr.2).length then
            setM vm pr.1 guard.pos
          else
            match (claimants props guard.pos).find? (fun i => i != pr.1) with
            | some oid =>
              if oid = 0 then setM vm pr.1 pr.2
              else
                match guards.find? (fun g => g.id == oid), lookupM props oid with
                | some og, some od =>
                  if od = guard.pos then setM (setM vm pr.1 guard.pos) oid og.pos
                  else setM vm pr.1 pr.2
                | _, _ => setM vm pr.1 pr.2
            | none => setM vm pr.1 pr.2) =
      setM vm pr.1
        (match guards.find? (fun g => g.id == pr.1) with
          | none => pr.2
          | some guard =>
            if 1 < (claimants props pr.2).length then guard.pos else pr.2) := by
    intro vm pr hpr
    obtain ⟨g0, hg0, hid0⟩ := hmem pr hpr
    have hfind : guards.find? (fun g => g.id == pr.1) = some g0 := by
      rw [← hid0]
      exact find?_guard_nodup guards hids g0 hg0
    rw [hfind]
    by_cases hcl : 1 < (claimants props pr.2).length
    · simp only [if_pos hcl]
    · simp only [if_neg hcl]
      have hnone : (claimants props g0.pos).find? (fun i => i != pr.1) = none := by
        rw [List.find?_eq_none]
        intro q hq
        simp only [claimants, List.mem_map, List.mem_filter] at hq
        obtain ⟨pr2, ⟨hpr2, hdest⟩, hq1⟩ := hq
        by_cases hqe : q = pr.1
        · simp [hqe]
        · exfalso
          have hne : g0.id ≠ pr2.1 := by
            rw [hid0, hq1]
            exact fun hh => hqe hh.symm
          exact hnosteal pr2 hpr2 g0 hg0 hne (beq_iff_eq.mp hdest)
      rw [hnone]
  rw [List.foldl_ext _ _ _ hstep]
  apply List.map_congr_left
  intro g hg
  rcases hlk : lookupM props g.id with _ | d
  · have hnm : g.id ∉ props.map Prod.fst := by
      rw [mem_keys_iff_lookup]
      rintro ⟨v, hv⟩
      rw [hlk] at hv
      cases hv
    rw [foldl_setM_lookup_notmem _ props [] g.id hnm]
    rfl
  · rw [foldl_setM_lookup_mem _ props [] g.id d hkeys hlk]
    rw [find?_guard_nodup guards hids g hg]
    by_cases hcl : 1 < (claimants props d).length
    · simp only [if_pos hcl]
    · simp only [if_neg hcl]

theorem lookupM_perm {ν : Type} (m1 m2 : List (Nat × ν))
    (hk : (m1.map Prod.fst).Nodup) (hperm : m1.Perm m2) (k : Nat) :
    lookupM m1 k = lookupM m2 k := by
  have hk2 : (m2.map Prod.fst).Nodup := ((hperm.map Prod.fst).nodup_iff).mp hk
  rcases h1 : lookupM m1 k with _ | v
  · rcases h2 : lookupM m2 k with _ | v2
    · rfl
    · exfalso
      have hm2 := (lookupM_eq_some_iff_mem hk2 k v2).mp h2
      have hmem1 := hperm.mem_iff.mpr hm2
      have hcontra := (lookupM_eq_some_iff_mem hk k v2).mpr hmem1
      rw [h1] at hcontra
      cases hcontra
  · have hm1 := (lookupM_eq_some_iff_mem hk k v).mp h1
    have hmem2 := hperm.mem_iff.mp hm1
    exact ((lookupM_eq_some_iff_mem hk2 k v).mpr hmem2).symm

theorem claimants_perm_length (props1 props2 : List (Nat × Vec))
    (hperm : props1.Perm props2) (d : Vec) :
    (claimants props1 d).length = (claimants props2 d).length := by
  unfold claimants
  simp only [List.length_map]
  exact (hperm.filter _).length_eq

/-- C2 amended: the Movement Arbiter is order-dependent in general; it is
order-independent on proposal sets in which no guard proposes the current
cell of another guard (given well-formed inputs: distinct guard ids, one
proposal per key, every proposal keyed by an existing guard): then any
permutation of the proposal list yields identical final positions. -/
theorem C2_order_independent_no_steal (guards : List Guard)
    (props1 props2 : List (Nat × Vec)) (hperm : props1.Perm props2)
    (hids : (guards.map Guard.id).Nodup)
    (hkeys : (props1.map Prod.fst).Nodup)
    (hmem : ∀ pr ∈ props1, ∃ g ∈ guards, g.id = pr.1)
    (hnosteal : ∀ pr ∈ props1, ∀ g ∈ guards, g.id ≠ pr.1 → pr.2 ≠ g.pos) :
    resolveMovementConflicts guards props1 = resolveMovementConflicts guards props2 := by
  have hkeys2 : (props2.map Prod.fst).Nodup := ((hperm.map Prod.fst).nodup_iff).mp hkeys
  have hmem2 : ∀ pr ∈ props2, ∃ g ∈ guards, g.id = pr.1 := fun pr hpr =>
    hmem pr (hperm.mem_iff.mpr hpr)
  have hnosteal2 : ∀ pr ∈ props2, ∀ g ∈ guards, g.id ≠ pr.1 → pr.2 ≠ g.pos :=
    fun pr hpr => hnosteal pr (hperm.mem_iff.mpr hpr)
  rw [resolve_eq_simple guards props1 hids hkeys hmem hnosteal,
    resolve_eq_simple guards props2 hids hkeys2 hmem2 hnosteal2]
  unfold simpleResolve
  apply List.map_congr_left
  intro g _
  rw [lookupM_perm props1 props2 hkeys hperm g.id]
  rcases hl : lookupM props2 g.id with _ | d
  · rfl
  · dsimp only
    rw [claimants_perm_length props1 props2 hperm d]

/-- C2 witness: a concrete no-steal proposal set and a permutation of it
resolve to the same positions. -/
theorem C2_order_independent_no_steal_witness :
    resolveMovementConflicts [gA, gB] [(0, ⟨2, 1⟩), (1, ⟨2, 2⟩)] =
      resolveMovementConflicts [gA, gB] [(1, ⟨2, 2⟩), (0, ⟨2, 1⟩)] :=
  C2_order_independent_no_steal [gA, gB] [(0, ⟨2, 1⟩), (1, ⟨2, 2⟩)]
    [(1, ⟨2, 2⟩), (0, ⟨2, 1⟩)] (List.Perm.swap _ _ _) (by decide) (by decide)
    (by decide) (by decide)

theorem selectMinS_mem (e : Vec) : ∀ (l : List SNode) (m : SNode) (r : List SNode),
    selectMinS e l = some (m, r) → m ∈ l ∧ ∀ x ∈ r, x ∈ l := by
  intro l
  induction l with
  | nil => intro m r h; cases h
  | cons n rest ih =>
    intro m r h
    unfold selectMinS at h
    rcases hr : selectMinS e rest with _ | ⟨m2, r2⟩
    · rw [hr] at h
      simp only [Option.some_inj, Prod.mk.injEq] at h
      obtain ⟨rfl, rfl⟩ := h
      exact ⟨List.mem_cons_self n rest, by simp⟩
    · rw [hr] at h
      dsimp only at h
      rcases hb : stepLE e n m2
      · rw [hb] at h
        simp only [Bool.false_eq_true, if_false, Option.some_inj, Prod.mk.injEq] at h
        obtain ⟨rfl, rfl⟩ := h
        refine ⟨List.mem_cons_of_mem n ((ih m2 r2 hr).1), ?_⟩
        intro x hx
        rcases List.mem_cons.mp hx with rfl | hx2
        · exact List.mem_cons_self _ _
        · exact List.mem_cons_of_mem n ((ih m2 r2 hr).2 x hx2)
      · rw [hb] at h
        simp only [if_true, Option.some_inj, Prod.mk.injEq] at h
        obtain ⟨rfl, rfl⟩ := h
        exact ⟨List.mem_cons_self _ _, fun x hx => List.mem_cons_of_mem n hx⟩

theorem removeNodeS_subset (np : Vec) :
    ∀ (l : List SNode), ∀ x ∈ removeNodeS np l, x ∈ l := by
  intro l
  induction l with
  | nil => intro x hx; cases hx
  | cons n rest ih =>
    intro x hx
    unfold removeNodeS at hx
    by_cases h : n.pos = np
    · rw [if_pos h] at hx
      exact List.mem_cons_of_mem n hx
    · rw [if_neg h] at hx
      rcases List.mem_cons.mp hx with rfl | hx2
      · exact List.mem_cons_self x rest
      · exact List.mem_cons_of_mem n (ih x hx2)

theorem relaxNbrS_frontier (l : Level) (s : Vec) (cur : SNode) (st : StepSt) (d : Vec)
    (hcur : SNodeOK l s cur)
    (hst : ∀ nd ∈ st.frontier, SNodeOK l s nd) :
    ∀ nd ∈ (relaxNbrS l cur st d).frontier, SNodeOK l s nd := by
  intro nd hnd
  unfold relaxNbrS at hnd
  by_cases hg : (!(l.isPassable (cur.pos.add d)) || st.closed.contains (cur.pos.add d)) = true
  · rw [if_pos hg] at hnd
    exact hst nd hnd
  · rw [if_neg hg] at hnd
    have hpass : l.isPassable (cur.pos.add d) = true := by
      rcases hp : l.isPassable (cur.pos.add d)
      · rw [hp] at hg
        simp at hg
      · rfl
    by_cases hb : (match jsGScore st.gmap (cur.pos.add d) with
        | none => true
        | some g => decide (cur.g + 1 < g)) = true
    · rw [if_pos hb] at hnd
      simp only at hnd
      rcases List.mem_append.mp hnd with hl2 | hr2
      · exact hst nd (removeNodeS_subset _ _ nd hl2)
      · rcases List.mem_singleton.mp hr2 with rfl
        constructor
        · intro hfn
          cases hfn
        · intro f hf
          simp only [Option.some_inj] at hf
          rcases hcf : cur.first with _ | f0
          · rw [hcf] at hf
            simp only at hf
            rw [← hf]
            exact hpass
          · rw [hcf] at hf
            simp only at hf
            rw [← hf]
            exact hcur.2 f0 hcf
    · rw [if_neg hb] at hnd
      exact hst nd hnd

theorem stepLoop_result (l : Level) (s e : Vec) : ∀ (fuel : Nat) (st : StepSt),
    (∀ nd ∈ st.frontier, SNodeOK l s nd) →
    (stepLoop l s e fuel st = s ∨ l.isPassable (stepLoop l s e fuel st) = true) := by
  intro fuel
  induction fuel with
  | zero => intro st _; exact Or.inl rfl
  | succ n ih =>
    intro st hst
    have hunf : stepLoop l s e (n + 1) st =
        (match selectMinS e st.frontier with
          | none => s
          | some (cur, rest) =>
            if cur.pos = e then
              match cur.first with
              | none => cur.pos
              | some f => f
            else
              stepLoop l s e n
                (expandNodeS l cur
                  { frontier := rest, closed := cur.pos :: st.closed, gmap := st.gmap })) := rfl
    rw [hunf]
    rcases hsel : selectMinS e st.frontier with _ | ⟨cur, rest⟩
    · exact Or.inl rfl
    · obtain ⟨hcurmem, hrest⟩ := selectMinS_mem e st.frontier cur rest hsel
      have hcur := hst cur hcurmem
      dsimp only
      by_cases hpe : cur.pos = e
      · rw [if_pos hpe]
        rcases hf : cur.first with _ | f
        · exact Or.inl (hcur.1 hf)
        · exact Or.inr (hcur.2 f hf)
      · rw [if_neg hpe]
        apply ih
        show ∀ nd ∈ (directions.foldl (relaxNbrS l cur)
          { frontier := rest, closed := cur.pos :: st.closed, gmap := st.gmap }).frontier,
          SNodeOK l s nd
        have hfold : ∀ (ds : List Vec) (st2 : StepSt),
            (∀ nd ∈ st2.frontier, SNodeOK l s nd) →
            ∀ nd ∈ (ds.foldl (relaxNbrS l cur) st2).frontier, SNodeOK l s nd := by
          intro ds
          induction ds with
          | nil => intro st2 h2; exact h2
          | cons d0 drest ihd =>
            intro st2 h2
            exact ihd _ (relaxNbrS_frontier l s cur st2 d0 hcur h2)
        exact hfold directions _ (fun nd hnd => hst nd (hrest nd hnd))

theorem getNextStep_pos (l : Level) (s e : Vec) :
    getNextStep l s e = s ∨ l.isPassable (getNextStep l s e) = true := by
  unfold getNextStep
  by_cases h : s = e
  · rw [if_pos h]
    exact Or.inl rfl
  · rw [if_neg h]
    apply stepLoop_result
    intro nd hnd
    rcases List.mem_singleton.mp hnd with rfl
    exact ⟨fun _ => rfl, fun f hf => by cases hf⟩

theorem mem_setM {ν : Type} (m : List (Nat × ν)) (k : Nat) (v : ν) :
    ∀ q ∈ setM m k v, q.2 = v ∨ q ∈ m := by
  induction m with
  | nil =>
    intro q hq
    rcases List.mem_singleton.mp hq with rfl
    exact Or.inl rfl
  | cons pr rest ih =>
    intro q hq
    obtain ⟨k2, v2⟩ := pr
    unfold setM at hq
    by_cases h : k2 = k
    · rw [if_pos h] at hq
      rcases List.mem_cons.mp hq with rfl | hq2
      · exact Or.inl rfl
      · exact Or.inr (List.mem_cons_of_mem _ hq2)
    · rw [if_neg h] at hq
      rcases List.mem_cons.mp hq with rfl | hq2
      · exact Or.inr (List.mem_cons_self _ _)
      · rcases ih q hq2 with h2 | h2
        · exact Or.inl h2
        · exact Or.inr (List.mem_cons_of_mem _ h2)

theorem lookupM_mem {ν : Type} : ∀ (m : List (Nat × ν)) (k : Nat) (v : ν),
    lookupM m k = some v → (k, v) ∈ m := by
  intro m
  induction m with
  | nil => intro k v h; cases h
  | cons pr rest ih =>
    intro k v h
    obtain ⟨k2, v2⟩ := pr
    unfold lookupM at h
    by_cases h2 : k2 = k
    · rw [if_pos h2] at h
      cases Option.some_inj.mp h
      subst h2
      exact List.mem_cons_self _ _
    · rw [if_neg h2] at h
      exact List.mem_cons_of_mem _ (ih k v h)

theorem foldl_values {α ν : Type} (P : ν → Prop)
    (step : List (Nat × ν) → α → List (Nat × ν)) :
    ∀ (l : List α),
      (∀ vm a, a ∈ l → ∀ q ∈ step vm a, P q.2 ∨ q ∈ vm) →
      ∀ (vm0 : List (Nat × ν)), (∀ q ∈ vm0, P q.2) →
      ∀ q ∈ l.foldl step vm0, P q.2 := by
  intro l
  induction l with
  | nil => intro _ vm0 h0 q hq; exact h0 q hq
  | cons a rest ih =>
    intro hstep vm0 h0 q hq
    refine ih (fun vm b hb => hstep vm b (List.mem_cons_of_mem a hb)) (step vm0 a) ?_ q hq
    intro q2 hq2
    rcases hstep vm0 a (List.mem_cons_self a rest) q2 hq2 with h2 | h2
    · exact h2
    · exact h0 q2 h2

theorem resolve_pos_sources (guards : List Guard) (props : List (Nat × Vec)) :
    ∀ g2 ∈ resolveMovementConflicts guards props,
      (∃ g ∈ guards, g2.pos = g.pos) ∨ ∃ pr ∈ props, g2.pos = pr.2 := by
  intro g2 hg2
  unfold resolveMovementConflicts at hg2
  rw [List.mem_map] at hg2
  obtain ⟨g, hg, hEq⟩ := hg2
  rcases hlk : lookupM (props.foldl (fun vm pr =>
      match guards.find? (fun g => g.id == pr.1) with
      | none => vm
      | some guard =>
        if 1 < (claimants props pr.2).length then
          setM vm pr.1 guard.pos
        else
          match (claimants props guard.pos).find? (fun i => i != pr.1) with
          | some oid =>
            if oid = 0 then setM vm pr.1 pr.2
            else
              match guards.find? (fun g => g.id == oid), lookupM props oid with
              | some og, some od =>
                if od = guard.pos then setM (setM vm pr.1 guard.pos) oid og.pos
                else setM vm pr.1 pr.2
              | _, _ => setM vm pr.1 pr.2
          | none => setM vm pr.1 pr.2) []) g.id with _ | np
  · rw [hlk] at hEq
    dsimp only at hEq
    rw [← hEq]
    exact Or.inl ⟨g, hg, rfl⟩
  · rw [hlk] at hEq
    dsimp only at hEq
    rw [← hEq]
    have hval : (∃ g3 ∈ guards, np = g3.pos) ∨ ∃ pr ∈ props, np = pr.2 := by
      have hmem2 := lookupM_mem _ g.id np hlk
      refine foldl_values
        (fun v => (∃ g3 ∈ guards, v = g3.pos) ∨ ∃ pr ∈ props, v = pr.2) _ props
        ?_ [] (by intro q hq; cases hq) (g.id, np) hmem2
      intro vm pr hpr q hq
      rcases hfind : guards.find? (fun g => g.id == pr.1) with _ | guard
      · rw [hfind] at hq
        exact Or.inr hq
      · rw [hfind] at hq
        dsimp only at hq
        have hguard := List.mem_of_find?_eq_some hfind
        by_cases hcl : 1 < (claimants props pr.2).length
        · rw [if_pos hcl] at hq
          rcases mem_setM vm pr.1 guard.pos q hq with h2 | h2
          · exact Or.inl (Or.inl ⟨guard, hguard, h2⟩)
          · exact Or.inr h2
        · rw [if_neg hcl] at hq
          rcases hocc : (claimants props guard.pos).find? (fun i => i != pr.1) with _ | oid
          · rw [hocc] at hq
            dsimp only at hq
            rcases mem_setM vm pr.1 pr.2 q hq with h2 | h2
            · exact Or.inl (Or.inr ⟨pr, hpr, h2⟩)
            · exact Or.inr h2
          · rw [hocc] at hq
            dsimp only at hq
            by_cases hz : oid = 0
            · rw [if_pos hz] at hq
              rcases mem_setM vm pr.1 pr.2 q hq with h2 | h2
              · exact Or.inl (Or.inr ⟨pr, hpr, h2⟩)
              · exact Or.inr h2
            · rw [if_neg hz] at hq
              rcases hf2 : guards.find? (fun g => g.id == oid) with _ | og <;>
                rcases hl2 : lookupM props oid with _ | od <;> rw [hf2, hl2] at hq <;>
                  dsimp only at hq
              · rcases mem_setM vm pr.1 pr.2 q hq with h2 | h2
                · exact Or.inl (Or.inr ⟨pr, hpr, h2⟩)
                · exact Or.inr h2
              · rcases mem_setM vm pr.1 pr.2 q hq with h2 | h2
                · exact Or.inl (Or.inr ⟨pr, hpr, h2⟩)
                · exact Or.inr h2
              · rcases mem_setM vm pr.1 pr.2 q hq with h2 | h2
                · exact Or.inl (Or.inr ⟨pr, hpr, h2⟩)
                · exact Or.inr h2
              · by_cases hod : od = guard.pos
                · rw [if_pos hod] at hq
                  have hog := List.mem_of_find?_eq_some hf2
                  rcases mem_setM _ oid og.pos q hq with h2 | h2
                  · exact Or.inl (Or.inl ⟨og, hog, h2⟩)
                  · rcases mem_setM vm pr.1 guard.pos q h2 with h3 | h3
                    · exact Or.inl (Or.inl ⟨guard, hguard, h3⟩)
                    · exact Or.inr h3
                · rw [if_neg hod] at hq
                  rcases mem_setM vm pr.1 pr.2 q hq with h2 | h2
                  · exact Or.inl (Or.inr ⟨pr, hpr, h2⟩)
                  · exact Or.inr h2
    rcases hval with ⟨g3, hg3, rfl⟩ | ⟨pr, hpr, rfl⟩
    · exact Or.inl ⟨g3, hg3, rfl⟩
    · exact Or.inr ⟨pr, hpr, rfl⟩

theorem updateMemory_pos (l : Level) (t : Nat) (e : List Noise) (g : Guard) :
    (updateMemory l t e g).pos = g.pos := by
  unfold updateMemory
  dsimp only
  split
  · rfl
  · split
    · split <;> rfl
    · rfl

theorem guardDecision_fst_pos (l : Level) (t : Nat) (tk ex : List Noise) (g : Guard) :
    ((guardDecision l t tk ex g).1).pos = g.pos := by
  unfold guardDecision
  split
  · rfl
  · split
    · split <;> rfl
    · rfl

theorem guardDecision_snd (l : Level) (t : Nat) (tk ex : List Noise) (g : Guard) :
    (guardDecision l t tk ex g).2 = g.pos ∨
      l.isPassable ((guardDecision l t tk ex g).2) = true := by
  unfold guardDecision
  split
  next s _ => exact getNextStep_pos l g.pos s.1.pos
  next =>
    split
    next m _ =>
      split
      · exact getNextStep_pos l g.pos m.pos
      · exact Or.inl rfl
    next => exact Or.inl rfl

theorem proposals_values (decisions : List (Guard × Vec)) :
    ∀ pr ∈ decisions.foldl (fun acc d => setM acc d.1.id d.2) ([] : List (Nat × Vec)),
      ∃ d ∈ decisions, pr.2 = d.2 := by
  intro pr hpr
  refine foldl_values (fun v => ∃ d ∈ decisions, v = d.2) _ decisions ?_ [] ?_ pr hpr
  · intro vm a ha q hq
    rcases mem_setM vm a.1.id a.2 q hq with h2 | h2
    · exact Or.inl ⟨a, ha, h2⟩
    · exact Or.inr h2
  · intro q hq
    cases hq

/-- C1 amended: simulateTurn keeps every guard on a passable (Floor) cell:
all movement comes from arbitrated proposals, every proposal is either the
guard having its own cell or a passable next step, and the arbiter only
assigns proposal destinations or current guard positions.  (Distinctness
of guard cells after the turn does NOT hold; see the counterexample.) -/
theorem C1_guards_stay_on_floor (gm : Game)
    (h : ∀ g ∈ gm.level.guards, gm.level.isPassable g.pos = true) :
    ∀ g2 ∈ gm.simulateTurn.level.guards,
      gm.simulateTurn.level.isPassable g2.pos = true := by
  intro g2 hg2
  have hsame : ∀ p, gm.simulateTurn.level.isPassable p = gm.level.isPassable p :=
    fun p => rfl
  rw [hsame]
  have hguards : gm.simulateTurn.level.guards =
      (resolveMovementConflicts
        ((gm.level.guards.map (guardDecision gm.level (gm.turnIndex + 1)
          (tickAll gm.level.config.timersAllowed gm.bombs).2.1
          (tickAll gm.level.config.timersAllowed gm.bombs).2.2)).map Prod.fst)
        ((gm.level.guards.map (guardDecision gm.level (gm.turnIndex + 1)
          (tickAll gm.level.config.timersAllowed gm.bombs).2.1
          (tickAll gm.level.config.timersAllowed gm.bombs).2.2)).foldl
          (fun acc d => setM acc d.1.id d.2) [])).map
        (updateMemory gm.level (gm.turnIndex + 1)
          (tickAll gm.level.config.timersAllowed gm.bombs).2.2) := rfl
  rw [hguards] at hg2
  rw [List.mem_map] at hg2
  obtain ⟨g3, hg3, hup⟩ := hg2
  rw [← hup, updateMemory_pos]
  rcases resolve_pos_sources _ _ g3 hg3 with ⟨g4, hg4, heq⟩ | ⟨pr, hpr, heq⟩
  · rw [heq]
    rw [List.mem_map] at hg4
    obtain ⟨d, hd, hdf⟩ := hg4
    rw [List.mem_map] at hd
    obtain ⟨g0, hg0, hdd⟩ := hd
    rw [← hdf, ← hdd, guardDecision_fst_pos]
    exact h g0 hg0
  · rw [heq]
    obtain ⟨d, hd, hde⟩ := proposals_values _ pr hpr
    rw [List.mem_map] at hd
    obtain ⟨g0, hg0, hdd⟩ := hd
    rw [hde, ← hdd]
    rcases guardDecision_snd gm.level (gm.turnIndex + 1) _ _ g0 with he | he
    · rw [he]
      exact h g0 hg0
    · exact he

/-- C1 witness: on gmC1 every guard sits on a Floor cell after the turn
(in fact both sit on (1, 1)). -/
theorem C1_guards_stay_on_floor_witness :
    gmC1.simulateTurn.level.isPassable
      ((gmC1.simulateTurn.level.guards.getD 0 gA).pos) = true :=
  C1_guards_stay_on_floor gmC1 (by decide) _ (by decide)

theorem insertLE_perm {α : Type} (le : α → α → Bool) (x : α) :
    ∀ l : List α, (insertLE le x l).Perm (x :: l) := by
  intro l
  induction l with
  | nil => exact List.Perm.refl _
  | cons y ys ih =>
    unfold insertLE
    by_cases h : le x y = true
    · rw [if_pos h]
    · rw [if_neg h]
      exact (List.Perm.cons y ih).trans (List.Perm.swap x y ys)

theorem sortByLE_perm {α : Type} (le : α → α → Bool) :
    ∀ l : List α, (sortByLE le l).Perm l := by
  intro l
  induction l with
  | nil => exact List.Perm.refl _
  | cons a t ih =>
    show (insertLE le a (sortByLE le t)).Perm (a :: t)
    exact (insertLE_perm le a (sortByLE le t)).trans (List.Perm.cons a ih)

theorem insertLE_pairwise {α : Type} (le : α → α → Bool)
    (htot : ∀ a b, le a b = true ∨ le b a = true)
    (htrans : ∀ a b c, le a b = true → le b c = true → le a c = true) (x : α) :
    ∀ l : List α, l.Pairwise (fun a b => le a b = true) →
      (insertLE le x l).Pairwise (fun a b => le a b = true) := by
  intro l
  induction l with
  | nil => intro _; exact List.pairwise_singleton _ x
  | cons y ys ih =>
    intro hl
    rw [List.pairwise_cons] at hl
    unfold insertLE
    by_cases h : le x y = true
    · rw [if_pos h]
      rw [List.pairwise_cons]
      refine ⟨?_, List.pairwise_cons.mpr hl⟩
      intro b hb
      rcases List.mem_cons.mp hb with rfl | hb2
      · exact h
      · exact htrans x y b h (hl.1 b hb2)
    · rw [if_neg h]
      rw [List.pairwise_cons]
      constructor
      · intro b hb
        have hb2 := (insertLE_perm le x ys).mem_iff.mp hb
        rcases List.mem_cons.mp hb2 with rfl | hb3
        · rcases htot b y with h2 | h2
          · exact absurd h2 h
          · exact h2
        · exact hl.1 b hb3
      · exact ih hl.2

theorem sortByLE_pairwise {α : Type} (le : α → α → Bool)
    (htot : ∀ a b, le a b = true ∨ le b a = true)
    (htrans : ∀ a b c, le a b = true → le b c = true → le a c = true) :
    ∀ l : List α, (sortByLE le l).Pairwise (fun a b => le a b = true) := by
  intro l
  induction l with
  | nil => exact List.Pairwise.nil
  | cons a t ih => exact insertLE_pairwise le htot htrans a _ ih

theorem sortByLE_head_min {α : Type} (le : α → α → Bool)
    (htot : ∀ a b, le a b = true ∨ le b a = true)
    (htrans : ∀ a b c, le a b = true → le b c = true → le a c = true)
    (l : List α) (h : α) (t : List α) (he : sortByLE le l = h :: t) :
    h ∈ l ∧ ∀ x ∈ l, le h x = true := by
  have hperm := sortByLE_perm le l
  rw [he] at hperm
  have hpw := sortByLE_pairwise le htot htrans l
  rw [he, List.pairwise_cons] at hpw
  constructor
  · exact hperm.mem_iff.mp (List.mem_cons_self h t)
  · intro x hx
    rcases List.mem_cons.mp (hperm.mem_iff.mpr hx) with rfl | hx2
    · rcases htot x x with h2 | h2 <;> exact h2
    · exact hpw.1 x hx2

theorem lexB_total {α κ : Type} [DecidableEq κ] (k : α → κ) (lt : κ → κ → Bool)
    (rest : α → α → Bool)
    (hlt : ∀ x y, x ≠ y → lt x y = true ∨ lt y x = true)
    (hrest : ∀ a b, rest a b = true ∨ rest b a = true) :
    ∀ a b, (if k a ≠ k b then lt (k a) (k b) else rest a b) = true ∨
      (if k b ≠ k a then lt (k b) (k a) else rest b a) = true := by
  intro a b
  by_cases h : k a = k b
  · rw [if_neg (by simp [h]), if_neg (by simp [h])]
    exact hrest a b
  · rw [if_pos h, if_pos (Ne.symm h)]
    exact hlt _ _ h

theorem lexB_trans {α κ : Type} [DecidableEq κ] (k : α → κ) (lt : κ → κ → Bool)
    (rest : α → α → Bool)
    (htr : ∀ x y z, x ≠ y → y ≠ z → lt x y = true → lt y z = true →
      (lt x z = true ∧ x ≠ z))
    (hrest : ∀ a b c, rest a b = true → rest b c = true → rest a c = true) :
    ∀ a b c, (if k a ≠ k b then lt (k a) (k b) else rest a b) = true →
      (if k b ≠ k c then lt (k b) (k c) else rest b c) = true →
      (if k a ≠ k c then lt (k a) (k c) else rest a c) = true := by
  intro a b c hab hbc
  by_cases h1 : k a = k b
  · rw [if_neg (by simp [h1])] at hab
    by_cases h2 : k b = k c
    · rw [if_neg (by simp [h2])] at hbc
      rw [if_neg (by simp [h1.trans h2])]
      exact hrest a b c hab hbc
    · rw [if_pos h2] at hbc
      rw [if_pos (h1 ▸ h2), h1]
      exact hbc
  · rw [if_pos h1] at hab
    by_cases h2 : k b = k c
    · rw [if_pos (fun hh : k a = k c => h1 (hh.trans h2.symm)), ← h2]
      exact hab
    · rw [if_pos h2] at hbc
      obtain ⟨h3, h4⟩ := htr _ _ _ h1 h2 hab hbc
      rw [if_pos h4]
      exact h3

theorem srcLE_total (l : Level) (gpos : Vec) :
    ∀ a b, srcLE l gpos a b = true ∨ srcLE l gpos b a = true := by
  exact lexB_total (fun s : Noise × Bool => s.1.level) (fun x y => decide (y < x))
    (fun a b =>
      if getPathDistance l gpos a.1.pos ≠ getPathDistance l gpos b.1.pos then
        distLT (getPathDistance l gpos a.1.pos) (getPathDistance l gpos b.1.pos)
      else if a.2 ≠ b.2 then a.2
      else if a.1.pos.y ≠ b.1.pos.y then decide (a.1.pos.y < b.1.pos.y)
      else decide (a.1.pos.x ≤ b.1.pos.x))
    (by intro x y h; rcases Nat.lt_or_ge x y with h2 | h2
        · exact Or.inr (by simpa using h2)
        · exact Or.inl (by simp [Nat.lt_of_le_of_ne h2 (Ne.symm h)]))
    (lexB_total (fun s : Noise × Bool => getPathDistance l gpos s.1.pos) distLT _
      (by intro x y h
          rcases x with _ | m <;> rcases y with _ | n
          · exact absurd rfl h
          · exact Or.inr rfl
          · exact Or.inl rfl
          · rcases Nat.lt_or_ge m n with h2 | h2
            · exact Or.inl (by simpa [distLT] using h2)
            · refine Or.inr ?_
              have : n < m := Nat.lt_of_le_of_ne h2 (fun hh => h (by rw [hh]))
              simpa [distLT] using this)
      (lexB_total (fun s : Noise × Bool => s.2) (fun x _ => x) _
        (by intro x y h
            rcases x
            · rcases y
              · exact absurd rfl h
              · exact Or.inr rfl
            · exact Or.inl rfl)
        (lexB_total (fun s : Noise × Bool => s.1.pos.y) (fun x y => decide (x < y)) _
          (by intro x y h
              rcases Int.lt_or_lt_of_ne h with h2 | h2
              · exact Or.inl (by simpa using h2)
              · exact Or.inr (by simpa using h2))
          (by intro a b
              rcases Int.le_total a.1.pos.x b.1.pos.x with h2 | h2
              · exact Or.inl (by simpa using h2)
              · exact Or.inr (by simpa using h2)))))

theorem srcLE_trans (l : Level) (gpos : Vec) :
    ∀ a b c, srcLE l gpos a b = true → srcLE l gpos b c = true →
      srcLE l gpos a c = true := by
  exact lexB_trans (fun s : Noise × Bool => s.1.level) (fun x y => decide (y < x))
    (fun a b =>
      if getPathDistance l gpos a.1.pos ≠ getPathDistance l gpos b.1.pos then
        distLT (getPathDistance l gpos a.1.pos) (getPathDistance l gpos b.1.pos)
      else if a.2 ≠ b.2 then a.2
      else if a.1.pos.y ≠ b.1.pos.y then decide (a.1.pos.y < b.1.pos.y)
      else decide (a.1.pos.x ≤ b.1.pos.x))
    (by intro x y z _ _ h1 h2
        simp only [decide_eq_true_eq] at h1 h2 ⊢
        exact ⟨by omega, by omega⟩)
    (lexB_trans (fun s : Noise × Bool => getPathDistance l gpos s.1.pos) distLT _
      (by intro x y z hxy hyz h1 h2
          rcases x with _ | m
          · cases h1
          · rcases y with _ | n
            · cases h2
            · rcases z with _ | p
              · exact ⟨rfl, by simp⟩
              · simp only [distLT, decide_eq_true_eq] at h1 h2 ⊢
                exact ⟨Nat.lt_trans h1 h2, by
                  intro hh
                  cases hh
                  exact Nat.lt_irrefl m (Nat.lt_trans h1 h2)⟩)
      (lexB_trans (fun s : Noise × Bool => s.2) (fun x _ => x) _
        (by intro x y z hxy _ h1 h2
            rcases x
            · cases h1
            · rcases y
              · cases h2
              · exact absurd rfl hxy)
        (lexB_trans (fun s : Noise × Bool => s.1.pos.y) (fun x y => decide (x < y)) _
          (by intro x y z _ _ h1 h2
              simp only [decide_eq_true_eq] at h1 h2 ⊢
              exact ⟨Int.lt_trans h1 h2, fun hh => by
                rw [hh] at h1
                exact absurd (Int.lt_trans h1 h2) (Int.lt_irrefl z)⟩)
          (by intro a b c h1 h2
              simp only [decide_eq_true_eq] at h1 h2 ⊢
              exact Int.le_trans h1 h2))))

/-- C5: chooseGuardTarget considers exactly the audible sources, i.e.
those whose path distance to the guard is at most its hearing radius
(unreachable entries excluded): it returns none exactly when no source is
audible, and any returned source is an audible ledger entry that sorts
before or ties with every audible entry in the order loudness descending,
path distance ascending, detonations before ticking sources, row-major
position.  In particular a source at path distance hearingRadius + 1 is
never returned, and a lone source at distance exactly hearingRadius is. -/
theorem C5_chooseGuardTarget_spec (l : Level) (g : Guard)
    (ticking exploding : List Noise) :
    (chooseGuardTarget l g ticking exploding = none ↔
      (ticking.map (fun s => (s, false)) ++ exploding.map (fun s => (s, true))).filter
        (fun s => audibleB l g s.1) = []) ∧
    (∀ s, chooseGuardTarget l g ticking exploding = some s →
      s ∈ (ticking.map (fun s => (s, false)) ++ exploding.map (fun s => (s, true))).filter
          (fun s => audibleB l g s.1) ∧
        audibleB l g s.1 = true ∧
        ∀ t ∈ (ticking.map (fun s => (s, false)) ++
            exploding.map (fun s => (s, true))).filter (fun s => audibleB l g s.1),
          srcLE l g.pos s t = true) := by
  unfold chooseGuardTarget
  dsimp only
  rcases hs : sortByLE (srcLE l g.pos)
      ((ticking.map (fun s => (s, false)) ++ exploding.map (fun s => (s, true))).filter
        (fun s => audibleB l g s.1)) with _ | ⟨s0, t0⟩
  · have hperm := sortByLE_perm (srcLE l g.pos)
      ((ticking.map (fun s => (s, false)) ++ exploding.map (fun s => (s, true))).filter
        (fun s => audibleB l g s.1))
    rw [hs] at hperm
    have hnil := List.perm_nil.mp hperm.symm
    refine ⟨⟨fun _ => hnil, fun _ => rfl⟩, ?_⟩
    intro s hsome
    cases hsome
  · obtain ⟨hmem, hmin⟩ := sortByLE_head_min (srcLE l g.pos) (srcLE_total l g.pos)
      (srcLE_trans l g.pos) _ s0 t0 hs
    constructor
    · constructor
      · intro hnone
        cases hnone
      · intro hnil
        rw [hnil] at hs
        simp [sortByLE] at hs
    · intro s hsome
      cases Option.some_inj.mp hsome
      exact ⟨hmem, (List.mem_filter.mp hmem).2, hmin⟩

/-- C5 witness: on lvC1 the detonation at (4, 1) is audible to guard gA
and is the selected source. -/
theorem C5_witness : audibleB lvC1 gA ⟨⟨4, 1⟩, 4⟩ = true :=
  ((C5_chooseGuardTarget_spec lvC1 gA [] [⟨⟨4, 1⟩, 4⟩]).2
    ((⟨⟨4, 1⟩, 4⟩ : Noise), true) (by decide)).2.1

theorem pathLen_zero_eq {l : Level} {a b : Vec} (h : PathLen l a b 0) : a = b := by
  cases h
  rfl

theorem pathLen_succ_inv {l : Level} {a c : Vec} {n : Nat}
    (h : PathLen l a c (n + 1)) :
    ∃ b, b ∈ nbrs a ∧ l.isPassable b = true ∧ PathLen l b c n := by
  cases h with
  | cons b hb hp hrest => exact ⟨b, hb, hp, hrest⟩

theorem pathLen_trans {l : Level} {a b c : Vec} {n m : Nat}
    (h1 : PathLen l a b n) : PathLen l b c m → PathLen l a c (n + m) := by
  induction h1 with
  | nil a => intro h2; rw [Nat.zero_add]; exact h2
  | @cons a2 c2 n2 b2 hb hp hrest ih =>
    intro h2
    have h3 := PathLen.cons b2 hb hp (ih h2)
    have heq : n2 + 1 + m = n2 + m + 1 := by omega
    rw [heq]
    exact h3

theorem pathLen_snoc {l : Level} {a b c : Vec} {n : Nat}
    (h : PathLen l a b n) (hc : c ∈ nbrs b) (hp : l.isPassable c = true) :
    PathLen l a c (n + 1) :=
  pathLen_trans h (PathLen.cons c hc hp (PathLen.nil c))

theorem manh_triangle (a b c : Vec) :
    a.manhattanDistance c ≤ a.manhattanDistance b + b.manhattanDistance c := by
  unfold Vec.manhattanDistance
  omega

theorem mem_nbrs_iff {a b : Vec} : b ∈ nbrs a ↔ ∃ d ∈ directions, a.add d = b := by
  unfold nbrs
  exact List.mem_map

theorem dir_cases {d : Vec} (hd : d ∈ directions) :
    d = ⟨0, -1⟩ ∨ d = ⟨1, 0⟩ ∨ d = ⟨0, 1⟩ ∨ d = ⟨-1, 0⟩ := by
  simpa [directions] using hd

theorem manh_nbr {a b : Vec} (h : b ∈ nbrs a) : a.manhattanDistance b = 1 := by
  obtain ⟨d, hd, rfl⟩ := mem_nbrs_iff.mp h
  rcases dir_cases hd with rfl | rfl | rfl | rfl <;>
    (simp only [Vec.add, Vec.manhattanDistance]; omega)

theorem manh_le_pathLen {l : Level} {a b : Vec} {n : Nat} (h : PathLen l a b n) :
    a.manhattanDistance b ≤ n := by
  induction h with
  | nil a => simp only [Vec.manhattanDistance]; omega
  | @cons a2 c2 n2 b2 hb hp hrest ih =>
    have h1 := manh_triangle a2 b2 c2
    have h2 := manh_nbr hb
    omega

theorem add_dir_ne {d : Vec} (hd : d ∈ directions) (a : Vec) : a.add d ≠ a := by
  rcases dir_cases hd with rfl | rfl | rfl | rfl <;>
    (intro h
     have hx := congrArg Vec.x h
     have hy := congrArg Vec.y h
     simp only [Vec.add] at hx hy
     omega)

theorem add_mem_nbrs {d : Vec} (hd : d ∈ directions) (a : Vec) : a.add d ∈ nbrs a :=
  List.mem_map_of_mem (Vec.add a) hd

theorem lookupA_setA (m : List (Vec × Nat)) (k : Vec) (v : Nat) (p : Vec) :
    lookupA (setA m k v) p = if k = p then some v else lookupA m p := by
  induction m with
  | nil => simp [setA, lookupA]
  | cons hd tl ih =>
    obtain ⟨k2, v2⟩ := hd
    by_cases h : k2 = k
    · subst h
      by_cases h2 : k2 = p <;> simp [setA, lookupA, h2]
    · by_cases h2 : k2 = p
      · have h3 : k ≠ p := fun hh => h (h2.trans hh.symm)
        have h4 : p ≠ k := fun hh => h3 hh.symm
        simp [setA, lookupA, h, h2, h3, h4]
      · simp [setA, lookupA, h, h2, ih]

theorem removeNode_subset (np : Vec) :
    ∀ (fr : List ANode), ∀ x ∈ removeNode np fr, x ∈ fr := by
  intro fr
  induction fr with
  | nil => intro x hx; cases hx
  | cons n rest ih =>
    intro x hx
    unfold removeNode at hx
    by_cases h : n.pos = np
    · rw [if_pos h] at hx
      exact List.mem_cons_of_mem n hx
    · rw [if_neg h] at hx
      rcases List.mem_cons.mp hx with rfl | hx2
      · exact List.mem_cons_self x rest
      · exact List.mem_cons_of_mem n (ih x hx2)

theorem removeNode_pos_sub (np : Vec) (fr : List ANode) :
    ∀ q ∈ (removeNode np fr).map ANode.pos, q ∈ fr.map ANode.pos := by
  intro q hq
  obtain ⟨x, hx, rfl⟩ := List.mem_map.mp hq
  exact List.mem_map_of_mem ANode.pos (removeNode_subset np fr x hx)

theorem removeNode_mem_ne (np : Vec) :
    ∀ (fr : List ANode), (fr.map ANode.pos).Nodup →
      ∀ x ∈ removeNode np fr, x.pos ≠ np := by
  intro fr
  induction fr with
  | nil => intro _ x hx; cases hx
  | cons n rest ih =>
    intro hn x hx
    rw [List.map_cons, List.nodup_cons] at hn
    unfold removeNode at hx
    by_cases h : n.pos = np
    · rw [if_pos h] at hx
      intro hxp
      apply hn.1
      have h2 : x.pos ∈ rest.map ANode.pos := List.mem_map_of_mem ANode.pos hx
      rw [hxp, ← h] at h2
      exact h2
    · rw [if_neg h] at hx
      rcases List.mem_cons.mp hx with rfl | hx2
      · exact h
      · exact ih hn.2 x hx2

theorem removeNode_mem_of_ne (np : Vec) :
    ∀ (fr : List ANode), ∀ x ∈ fr, x.pos ≠ np → x ∈ removeNode np fr := by
  intro fr
  induction fr with
  | nil => intro x hx; cases hx
  | cons n rest ih =>
    intro x hx hxp
    unfold removeNode
    by_cases h : n.pos = np
    · rw [if_pos h]
      rcases List.mem_cons.mp hx with rfl | hx2
      · exact absurd h hxp
      · exact hx2
    · rw [if_neg h]
      rcases List.mem_cons.mp hx with rfl | hx2
      · exact List.mem_cons_self x _
      · exact List.mem_cons_of_mem n (ih x hx2 hxp)

theorem removeNode_pos_nodup (np : Vec) :
    ∀ (fr : List ANode), (fr.map ANode.pos).Nodup →
      ((removeNode np fr).map ANode.pos).Nodup := by
  intro fr
  induction fr with
  | nil => intro h; exact h
  | cons n rest ih =>
    intro hn
    rw [List.map_cons, List.nodup_cons] at hn
    unfold removeNode
    by_cases h : n.pos = np
    · rw [if_pos h]
      exact hn.2
    · rw [if_neg h, List.map_cons, List.nodup_cons]
      exact ⟨fun hmem => hn.1 (removeNode_pos_sub np rest n.pos hmem), ih hn.2⟩

theorem selectMin_none (e : Vec) :
    ∀ (fr : List ANode), selectMin e fr = none → fr = [] := by
  intro fr h
  cases fr with
  | nil => rfl
  | cons n rest =>
    exfalso
    unfold selectMin at h
    rcases hr : selectMin e rest with _ | ⟨m2, r2⟩ <;> rw [hr] at h
    · cases h
    · dsimp only at h
      rcases hb : nodeLE e n m2 <;> rw [hb] at h <;> simp at h

theorem selectMin_perm (e : Vec) :
    ∀ (fr : List ANode) (m : ANode) (r : List ANode),
      selectMin e fr = some (m, r) → fr.Perm (m :: r) := by
  intro fr
  induction fr with
  | nil => intro m r h; cases h
  | cons n rest ih =>
    intro m r h
    unfold selectMin at h
    rcases hr : selectMin e rest with _ | ⟨m2, r2⟩ <;> rw [hr] at h
    · simp only [Option.some_inj, Prod.mk.injEq] at h
      obtain ⟨rfl, rfl⟩ := h
      have h2 : rest = [] := selectMin_none e rest hr
      subst h2
      exact List.Perm.refl _
    · dsimp only at h
      rcases hb : nodeLE e n m2 <;> rw [hb] at h
      · simp only [Bool.false_eq_true, if_false, Option.some_inj, Prod.mk.injEq] at h
        obtain ⟨rfl, rfl⟩ := h
        exact ((ih m2 r2 hr).cons n).trans (List.Perm.swap m2 n r2)
      · simp only [if_true, Option.some_inj, Prod.mk.injEq] at h
        obtain ⟨rfl, rfl⟩ := h
        exact List.Perm.refl _

theorem nodeLE_total (e : Vec) :
    ∀ a b, nodeLE e a b = true ∨ nodeLE e b a = true := by
  exact lexB_total (fun a : ANode => a.g + a.pos.manhattanDistance e)
    (fun x y => decide (x < y))
    (fun a b =>
      if a.pos.manhattanDistance e ≠ b.pos.manhattanDistance e then
        decide (a.pos.manhattanDistance e < b.pos.manhattanDistance e)
      else if a.pos.y ≠ b.pos.y then decide (a.pos.y < b.pos.y)
      else decide (a.pos.x ≤ b.pos.x))
    (by intro x y h
        rcases Nat.lt_or_ge x y with h2 | h2
        · exact Or.inl (by simpa using h2)
        · exact Or.inr (by simp [Nat.lt_of_le_of_ne h2 (Ne.symm h)]))
    (lexB_total (fun a : ANode => a.pos.manhattanDistance e) (fun x y => decide (x < y)) _
      (by intro x y h
          rcases Nat.lt_or_ge x y with h2 | h2
          · exact Or.inl (by simpa using h2)
          · exact Or.inr (by simp [Nat.lt_of_le_of_ne h2 (Ne.symm h)]))
      (lexB_total (fun a : ANode => a.pos.y) (fun x y => decide (x < y)) _
        (by intro x y h
            rcases Int.lt_or_lt_of_ne h with h2 | h2
            · exact Or.inl (by simpa using h2)
            · exact Or.inr (by simpa using h2))
        (by intro a b
            rcases Int.le_total a.pos.x b.pos.x with h2 | h2
            · exact Or.inl (by simpa using h2)
            · exact Or.inr (by simpa using h2))))

theorem nodeLE_trans (e : Vec) :
    ∀ a b c, nodeLE e a b = true → nodeLE e b c = true → nodeLE e a c = true := by
  exact lexB_trans (fun a : ANode => a.g + a.pos.manhattanDistance e)
    (fun x y => decide (x < y))
    (fun a b =>
      if a.pos.manhattanDistance e ≠ b.pos.manhattanDistance e then
        decide (a.pos.manhattanDistance e < b.pos.manhattanDistance e)
      else if a.pos.y ≠ b.pos.y then decide (a.pos.y < b.pos.y)
      else decide (a.pos.x ≤ b.pos.x))
    (by intro x y z _ _ h1 h2
        simp only [decide_eq_true_eq] at h1 h2 ⊢
        exact ⟨by omega, by omega⟩)
    (lexB_trans (fun a : ANode => a.pos.manhattanDistance e) (fun x y => decide (x < y)) _
      (by intro x y z _ _ h1 h2
          simp only [decide_eq_true_eq] at h1 h2 ⊢
          exact ⟨by omega, by omega⟩)
      (lexB_trans (fun a : ANode => a.pos.y) (fun x y => decide (x < y)) _
        (by intro x y z _ _ h1 h2
            simp only [decide_eq_true_eq] at h1 h2 ⊢
            exact ⟨by omega, by omega⟩)
        (by intro a b c h1 h2
            simp only [decide_eq_true_eq] at h1 h2 ⊢
            exact Int.le_trans h1 h2)))

theorem nodeLE_le_f (e : Vec) (a b : ANode) (h : nodeLE e a b = true) :
    a.g + a.pos.manhattanDistance e ≤ b.g + b.pos.manhattanDistance e := by
  by_cases hf : a.g + a.pos.manhattanDistance e = b.g + b.pos.manhattanDistance e
  · omega
  · have h2 : decide (a.g + a.pos.manhattanDistance e <
        b.g + b.pos.manhattanDistance e) = true := by
      simp only [nodeLE] at h
      rw [if_pos hf] at h
      exact h
    simp only [decide_eq_true_eq] at h2
    omega

theorem selectMin_min (e : Vec) :
    ∀ (fr : List ANode) (m : ANode) (r : List ANode),
      selectMin e fr = some (m, r) → ∀ x ∈ fr, nodeLE e m x = true := by
  intro fr
  induction fr with
  | nil => intro m r h; cases h
  | cons n rest ih =>
    intro m r h x hx
    unfold selectMin at h
    rcases hr : selectMin e rest with _ | ⟨m2, r2⟩ <;> rw [hr] at h
    · simp only [Option.some_inj, Prod.mk.injEq] at h
      obtain ⟨rfl, rfl⟩ := h
      have h2 : rest = [] := selectMin_none e rest hr
      subst h2
      rcases List.mem_cons.mp hx with rfl | hx2
      · rcases nodeLE_total e x x with h2 | h2 <;> exact h2
      · cases hx2
    · dsimp only at h
      rcases hb : nodeLE e n m2 <;> rw [hb] at h
      · simp only [Bool.false_eq_true, if_false, Option.some_inj, Prod.mk.injEq] at h
        obtain ⟨rfl, rfl⟩ := h
        rcases List.mem_cons.mp hx with rfl | hx2
        · rcases nodeLE_total e m2 x with h2 | h2
          · exact h2
          · exact absurd h2 (by simp [hb])
        · exact ih m2 r2 hr x hx2
      · simp only [if_true, Option.some_inj, Prod.mk.injEq] at h
        obtain ⟨rfl, rfl⟩ := h
        rcases List.mem_cons.mp hx with rfl | hx2
        · rcases nodeLE_total e x x with h2 | h2 <;> exact h2
        · exact nodeLE_trans e n m2 x hb (ih m2 r2 hr x hx2)

theorem relaxNbr_closed (l : Level) (cur : ANode) (st : SearchSt) (d : Vec) :
    (relaxNbr l cur st d).closed = st.closed := by
  simp only [relaxNbr]
  split
  · rfl
  · split <;> rfl

theorem foldl_relax_closed (l : Level) (cur : ANode) :
    ∀ (ds : List Vec) (st : SearchSt),
      (ds.foldl (relaxNbr l cur) st).closed = st.closed := by
  intro ds
  induction ds with
  | nil => intro st; rfl
  | cons d0 tl ih =>
    intro st
    rw [List.foldl_cons, ih, relaxNbr_closed]

theorem relaxNbr_midInv (l : Level) (s e : Vec) (cur : ANode) (st : SearchSt)
    (d : Vec) (hd : d ∈ directions) (hI : MidInv l s e cur st) :
    MidInv l s e cur (relaxNbr l cur st d) := by
  simp only [relaxNbr]
  split
  next => exact hI
  next hblock =>
    split
    next hbet =>
      have hpass : l.isPassable (cur.pos.add d) = true := by
        rcases hb : l.isPassable (cur.pos.add d)
        · exact absurd (by rw [hb]; rfl) hblock
        · rfl
      have hnc : (cur.pos.add d) ∉ st.closed := by
        intro hmem
        apply hblock
        have hc : st.closed.contains (cur.pos.add d) = true := List.elem_iff.mpr hmem
        rw [hc, hpass]
        rfl
      have hcurpath : PathLen l s cur.pos cur.g := by
        obtain ⟨gp, hgp, hpl, _⟩ := hI.closed_opt cur.pos hI.cur_closed
        have h2 := hI.cur_gmap
        rw [hgp] at h2
        rwa [Option.some_inj.mp h2] at hpl
      have hnewpath : PathLen l s (cur.pos.add d) (cur.g + 1) :=
        pathLen_snoc hcurpath (add_mem_nbrs hd cur.pos) hpass
      refine ⟨?_, ?_, ?_, ?_, ?_, ?_, ?_, ?_, ?_, ?_, ?_, ?_, ?_, ?_, ?_⟩
      · exact hI.closed_nodup
      · exact hI.s_closed
      · exact hI.e_unclosed
      · intro nd hnd
        rcases List.mem_append.mp hnd with h | h
        · exact hI.front_unclosed nd (removeNode_subset _ _ nd h)
        · rw [List.mem_singleton] at h
          subst h
          exact hnc
      · show ((removeNode (cur.pos.add d) st.frontier ++
            [(⟨cur.pos.add d, cur.g + 1⟩ : ANode)]).map ANode.pos).Nodup
        rw [List.map_append]
        apply List.Nodup.append
        · exact removeNode_pos_nodup _ _ hI.front_nodup
        · exact List.nodup_singleton _
        · intro q hq hq2
          rw [List.map_singleton, List.mem_singleton] at hq2
          subst hq2
          obtain ⟨x, hx, hxp⟩ := List.mem_map.mp hq
          exact removeNode_mem_ne _ st.frontier hI.front_nodup x hx hxp
      · intro nd hnd
        rcases List.mem_append.mp hnd with h | h
        · exact hI.front_sound nd (removeNode_subset _ _ nd h)
        · rw [List.mem_singleton] at h
          subst h
          exact hnewpath
      · intro nd hnd
        rcases List.mem_append.mp hnd with h | h
        · exact hI.front_pass nd (removeNode_subset _ _ nd h)
        · rw [List.mem_singleton] at h
          subst h
          exact Or.inr hpass
      · intro nd hnd
        rcases List.mem_append.mp hnd with h | h
        · have hne : nd.pos ≠ cur.pos.add d :=
            removeNode_mem_ne _ st.frontier hI.front_nodup nd h
          show lookupA (setA st.gmap (cur.pos.add d) (cur.g + 1)) nd.pos = some nd.g
          rw [lookupA_setA, if_neg (fun hh => hne hh.symm)]
          exact hI.front_gmap nd (removeNode_subset _ _ nd h)
        · rw [List.mem_singleton] at h
          subst h
          show lookupA (setA st.gmap (cur.pos.add d) (cur.g + 1)) (cur.pos.add d) =
            some (cur.g + 1)
          rw [lookupA_setA, if_pos rfl]
      · intro p hp
        have hp2 : lookupA (setA st.gmap (cur.pos.add d) (cur.g + 1)) p = some 0 := hp
        rw [lookupA_setA] at hp2
        by_cases hpe : cur.pos.add d = p
        · rw [if_pos hpe] at hp2
          simp at hp2
        · rw [if_neg hpe] at hp2
          exact hI.gmap_zero p hp2
      · intro p g hp
        have hp2 : lookupA (setA st.gmap (cur.pos.add d) (cur.g + 1)) p = some g := hp
        rw [lookupA_setA] at hp2
        by_cases hpe : cur.pos.add d = p
        · rw [if_pos hpe] at hp2
          right
          exact ⟨⟨cur.pos.add d, cur.g + 1⟩,
            List.mem_append_right _ (List.mem_singleton_self _), hpe,
            Option.some_inj.mp hp2⟩
        · rw [if_neg hpe] at hp2
          rcases hI.gmap_cover p g hp2 with h | ⟨nd, hnd, hndp, hndg⟩
          · left
            exact h
          · right
            refine ⟨nd,
              List.mem_append_left _ (removeNode_mem_of_ne _ st.frontier nd hnd ?_),
              hndp, hndg⟩
            rw [hndp]
            exact fun hh => hpe hh.symm
      · intro p hp
        have hpcl : p ∈ st.closed := hp
        obtain ⟨gp, hgp, hpl, hmin⟩ := hI.closed_opt p hpcl
        have hne : cur.pos.add d ≠ p := fun hh => (hh ▸ hnc) hpcl
        refine ⟨gp, ?_, hpl, hmin⟩
        show lookupA (setA st.gmap (cur.pos.add d) (cur.g + 1)) p = some gp
        rw [lookupA_setA, if_neg hne]
        exact hgp
      · intro p hp hpc gp hgp d2 hd2 hq2 hnc2
        have hpcl : p ∈ st.closed := hp
        have hne : cur.pos.add d ≠ p := fun hh => (hh ▸ hnc) hpcl
        have hgp2 : lookupA st.gmap p = some gp := by
          have h3 : lookupA (setA st.gmap (cur.pos.add d) (cur.g + 1)) p = some gp := hgp
          rwa [lookupA_setA, if_neg hne] at h3
        have hnc3 : p.add d2 ∉ st.closed := hnc2
        obtain ⟨nd, hnd, hndp, hndg⟩ := hI.closed_exp p hpcl hpc gp hgp2 d2 hd2 hq2 hnc3
        by_cases hq : p.add d2 = cur.pos.add d
        · have hndp2 : nd.pos = cur.pos.add d := by rw [hndp, hq]
          have hlk : lookupA st.gmap (cur.pos.add d) = some nd.g := by
            rw [← hndp2]
            exact hI.front_gmap nd hnd
          have hnz : nd.g ≠ 0 := by
            intro h0
            apply hnc
            have hs2 : nd.pos = s := hI.gmap_zero nd.pos (by rw [hI.front_gmap nd hnd, h0])
            rw [← hndp2, hs2]
            exact hI.s_closed
          have hjs : jsGScore st.gmap (cur.pos.add d) = some nd.g := by
            unfold jsGScore
            rw [hlk]
            simp [hnz]
          have hlt : cur.g + 1 < nd.g := by
            rw [hjs] at hbet
            simpa using hbet
          refine ⟨⟨cur.pos.add d, cur.g + 1⟩,
            List.mem_append_right _ (List.mem_singleton_self _), hq.symm, ?_⟩
          show cur.g + 1 ≤ gp + 1
          omega
        · refine ⟨nd,
            List.mem_append_left _ (removeNode_mem_of_ne _ st.frontier nd hnd ?_),
            hndp, hndg⟩
          rw [hndp]
          exact hq
      · intro p hp
        exact hI.closed_pass p hp
      · exact hI.cur_closed
      · show lookupA (setA st.gmap (cur.pos.add d) (cur.g + 1)) cur.pos = some cur.g
        rw [lookupA_setA, if_neg (add_dir_ne hd cur.pos)]
        exact hI.cur_gmap
    next => exact hI

theorem relaxNbr_persist (l : Level) (cur : ANode) (st : SearchSt) (d : Vec)
    (q : Vec) (h : ∃ nd ∈ st.frontier, nd.pos = q ∧ nd.g ≤ cur.g + 1) :
    ∃ nd ∈ (relaxNbr l cur st d).frontier, nd.pos = q ∧ nd.g ≤ cur.g + 1 := by
  obtain ⟨nd, hnd, hpos, hg⟩ := h
  simp only [relaxNbr]
  split
  next => exact ⟨nd, hnd, hpos, hg⟩
  next =>
    split
    next =>
      by_cases hq : q = cur.pos.add d
      · refine ⟨⟨cur.pos.add d, cur.g + 1⟩,
          List.mem_append_right _ (List.mem_singleton_self _), hq.symm, ?_⟩
        show cur.g + 1 ≤ cur.g + 1
        omega
      · refine ⟨nd,
          List.mem_append_left _ (removeNode_mem_of_ne _ st.frontier nd hnd ?_),
          hpos, hg⟩
        rw [hpos]
        exact hq
    next => exact ⟨nd, hnd, hpos, hg⟩

theorem foldl_relax_persist (l : Level) (cur : ANode) (q : Vec) :
    ∀ (ds : List Vec) (st : SearchSt),
      (∃ nd ∈ st.frontier, nd.pos = q ∧ nd.g ≤ cur.g + 1) →
      ∃ nd ∈ (ds.foldl (relaxNbr l cur) st).frontier, nd.pos = q ∧ nd.g ≤ cur.g + 1 := by
  intro ds
  induction ds with
  | nil => intro st h; exact h
  | cons d0 tl ih =>
    intro st h
    rw [List.foldl_cons]
    exact ih _ (relaxNbr_persist l cur st d0 q h)

theorem relaxNbr_guarantee (l : Level) (s e : Vec) (cur : ANode) (st : SearchSt)
    (d : Vec) (hI : MidInv l s e cur st)
    (hpass : l.isPassable (cur.pos.add d) = true)
    (hnc : (cur.pos.add d) ∉ st.closed) :
    ∃ nd ∈ (relaxNbr l cur st d).frontier, nd.pos = cur.pos.add d ∧ nd.g ≤ cur.g + 1 := by
  have hcf : st.closed.contains (cur.pos.add d) = false := by
    rcases hb : st.closed.contains (cur.pos.add d)
    · rfl
    · exact absurd (List.elem_iff.mp hb) hnc
  simp only [relaxNbr]
  split
  next hblock =>
    rw [hpass, hcf] at hblock
    simp at hblock
  next hblock =>
    split
    next hbet =>
      refine ⟨⟨cur.pos.add d, cur.g + 1⟩,
        List.mem_append_right _ (List.mem_singleton_self _), rfl, ?_⟩
      show cur.g + 1 ≤ cur.g + 1
      omega
    next hbet =>
      rcases hjs : jsGScore st.gmap (cur.pos.add d) with _ | g
      · exfalso
        apply hbet
        rw [hjs]
      · have hg_le : g ≤ cur.g + 1 := by
          rcases Nat.lt_or_ge (cur.g + 1) g with h2 | h2
          · exfalso
            apply hbet
            rw [hjs]
            simpa using h2
          · exact h2
        have hlk : ∃ g2, lookupA st.gmap (cur.pos.add d) = some g2 ∧ g2 = g := by
          unfold jsGScore at hjs
          rcases hlk2 : lookupA st.gmap (cur.pos.add d) with _ | g2 <;> rw [hlk2] at hjs <;>
            dsimp only at hjs
          · cases hjs
          · by_cases h0 : g2 = 0
            · rw [if_pos h0] at hjs
              cases hjs
            · rw [if_neg h0] at hjs
              exact ⟨g2, rfl, Option.some_inj.mp hjs⟩
        obtain ⟨g2, hlk2, rfl⟩ := hlk
        rcases hI.gmap_cover _ _ hlk2 with h | ⟨nd, hnd, hndp, hndg⟩
        · exact absurd h hnc
        · exact ⟨nd, hnd, hndp, by omega⟩

theorem foldl_relax_midInv (l : Level) (s e : Vec) (cur : ANode) :
    ∀ (ds : List Vec), (∀ x ∈ ds, x ∈ directions) → ∀ (st : SearchSt),
      MidInv l s e cur st → MidInv l s e cur (ds.foldl (relaxNbr l cur) st) := by
  intro ds
  induction ds with
  | nil => intro _ st hI; exact hI
  | cons d0 tl ih =>
    intro hsub st hI
    rw [List.foldl_cons]
    exact ih (fun x hx => hsub x (List.mem_cons_of_mem d0 hx)) _
      (relaxNbr_midInv l s e cur st d0 (hsub d0 (List.mem_cons_self d0 tl)) hI)

theorem expand_guarantee (l : Level) (s e : Vec) (cur : ANode) :
    ∀ (ds : List Vec), (∀ x ∈ ds, x ∈ directions) → ∀ (st : SearchSt),
      MidInv l s e cur st → ∀ d ∈ ds, l.isPassable (cur.pos.add d) = true →
      (cur.pos.add d) ∉ st.closed →
      ∃ nd ∈ (ds.foldl (relaxNbr l cur) st).frontier,
        nd.pos = cur.pos.add d ∧ nd.g ≤ cur.g + 1 := by
  intro ds
  induction ds with
  | nil =>
    intro _ st _ d hd
    cases hd
  | cons d0 tl ih =>
    intro hsub st hI d hd hpass hnc
    rw [List.foldl_cons]
    rcases List.mem_cons.mp hd with heq | hd2
    · subst heq
      exact foldl_relax_persist l cur (cur.pos.add d) tl _
        (relaxNbr_guarantee l s e cur st d hI hpass hnc)
    · refine ih (fun x hx => hsub x (List.mem_cons_of_mem d0 hx)) _
        (relaxNbr_midInv l s e cur st d0 (hsub d0 (List.mem_cons_self d0 tl)) hI)
        d hd2 hpass ?_
      rw [relaxNbr_closed]
      exact hnc

theorem expand_ainv (l : Level) (s e : Vec) (cur : ANode) (st : SearchSt)
    (hI : MidInv l s e cur st) : AInv l s e (expandNode l cur st) := by
  have hM : MidInv l s e cur (directions.foldl (relaxNbr l cur) st) :=
    foldl_relax_midInv l s e cur directions (fun x hx => hx) st hI
  have hcl : (directions.foldl (relaxNbr l cur) st).closed = st.closed :=
    foldl_relax_closed l cur directions st
  refine ⟨hM.closed_nodup, hM.s_closed, hM.e_unclosed, hM.front_unclosed, hM.front_nodup,
    hM.front_sound, hM.front_pass, hM.front_gmap, hM.gmap_zero, hM.gmap_cover,
    hM.closed_opt, ?_, hM.closed_pass⟩
  intro p hp gp hgp d hd hpass hnc
  by_cases hpc : p = cur.pos
  · subst hpc
    have hnc2 : cur.pos.add d ∉ (directions.foldl (relaxNbr l cur) st).closed := hnc
    rw [hcl] at hnc2
    have hgp2 : gp = cur.g := by
      have h2 : lookupA (directions.foldl (relaxNbr l cur) st).gmap cur.pos = some gp := hgp
      rw [hM.cur_gmap] at h2
      exact (Option.some_inj.mp h2).symm
    subst hgp2
    exact expand_guarantee l s e cur directions (fun x hx => hx) st hI d hd hpass hnc2
  · exact hM.closed_exp p hp hpc gp hgp d hd hpass hnc

theorem closed_escape (l : Level) (s e : Vec) (st : SearchSt) (hI : AInv l s e st) :
    ∀ (k : Nat) (p t : Vec) (gp : Nat), p ∈ st.closed → t ∉ st.closed →
      lookupA st.gmap p = some gp → PathLen l p t k →
      ∃ nd ∈ st.frontier, ∃ j, PathLen l nd.pos t j ∧ nd.g + j ≤ gp + k := by
  intro k
  induction k with
  | zero =>
    intro p t gp hp ht hgp hpath
    exact absurd (pathLen_zero_eq hpath ▸ hp) ht
  | succ k2 ih =>
    intro p t gp hp ht hgp hpath
    obtain ⟨b, hb, hbpass, hbpath⟩ := pathLen_succ_inv hpath
    obtain ⟨d, hd, hdb⟩ := mem_nbrs_iff.mp hb
    by_cases hbc : b ∈ st.closed
    · obtain ⟨gb, hgb, hbpl, hbmin⟩ := hI.closed_opt b hbc
      obtain ⟨gp2, hgp2, hppl, _⟩ := hI.closed_opt p hp
      have heq : gp = gp2 := by
        rw [hgp] at hgp2
        exact Option.some_inj.mp hgp2
      subst heq
      have hsb : PathLen l s b (gp + 1) := pathLen_snoc hppl hb hbpass
      have hgb_le : gb ≤ gp + 1 := hbmin _ hsb
      obtain ⟨nd, hnd, j, hj, hle⟩ := ih b t gb hbc ht hgb hbpath
      exact ⟨nd, hnd, j, hj, by omega⟩
    · obtain ⟨nd, hnd, hndp, hndg⟩ := hI.closed_exp p hp gp hgp d hd
        (by rw [hdb]; exact hbpass) (by rw [hdb]; exact hbc)
      refine ⟨nd, hnd, k2, ?_, ?_⟩
      · rw [hndp, hdb]
        exact hbpath
      · omega

theorem pop_opt (l : Level) (s e : Vec) (st : SearchSt) (cur : ANode)
    (rest : List ANode) (hI : AInv l s e st)
    (hsel : selectMin e st.frontier = some (cur, rest)) :
    ∀ m, PathLen l s cur.pos m → cur.g ≤ m := by
  intro m hm
  have hcur_mem : cur ∈ st.frontier :=
    (selectMin_perm e st.frontier cur rest hsel).mem_iff.mpr (List.mem_cons_self cur rest)
  have hcur_uncl : cur.pos ∉ st.closed := hI.front_unclosed cur hcur_mem
  obtain ⟨gs0, hgs, hspl, hsmin⟩ := hI.closed_opt s hI.s_closed
  have hgs0 : gs0 = 0 := Nat.le_zero.mp (hsmin 0 (PathLen.nil s))
  subst hgs0
  obtain ⟨nd, hnd, j, hj, hle⟩ :=
    closed_escape l s e st hI m s cur.pos 0 hI.s_closed hcur_uncl hgs hm
  have hlef := nodeLE_le_f e cur nd (selectMin_min e st.frontier cur rest hsel nd hnd)
  have hmanh := manh_le_pathLen hj
  have htri := manh_triangle nd.pos cur.pos e
  omega

theorem pop_midInv (l : Level) (s e : Vec) (st : SearchSt) (cur : ANode)
    (rest : List ANode) (hI : AInv l s e st)
    (hsel : selectMin e st.frontier = some (cur, rest)) (hne : cur.pos ≠ e) :
    MidInv l s e cur
      { frontier := rest, closed := cur.pos :: st.closed, gmap := st.gmap } := by
  have hperm := selectMin_perm e st.frontier cur rest hsel
  have hcur_mem : cur ∈ st.frontier := hperm.mem_iff.mpr (List.mem_cons_self cur rest)
  have hpos_perm : (st.frontier.map ANode.pos).Perm (cur.pos :: rest.map ANode.pos) := by
    simpa using hperm.map ANode.pos
  have hpos_nodup : (cur.pos :: rest.map ANode.pos).Nodup :=
    hpos_perm.nodup_iff.mp hI.front_nodup
  have hcur_not_rest : cur.pos ∉ rest.map ANode.pos := (List.nodup_cons.mp hpos_nodup).1
  have hrest_nodup : (rest.map ANode.pos).Nodup := (List.nodup_cons.mp hpos_nodup).2
  have hrest_sub : ∀ nd ∈ rest, nd ∈ st.frontier :=
    fun nd h => hperm.mem_iff.mpr (List.mem_cons_of_mem cur h)
  have hcur_uncl : cur.pos ∉ st.closed := hI.front_unclosed cur hcur_mem
  have hcur_gmap : lookupA st.gmap cur.pos = some cur.g := hI.front_gmap cur hcur_mem
  have hopt := pop_opt l s e st cur rest hI hsel
  refine ⟨?_, ?_, ?_, ?_, ?_, ?_, ?_, ?_, ?_, ?_, ?_, ?_, ?_, ?_, ?_⟩
  · exact List.nodup_cons.mpr ⟨hcur_uncl, hI.closed_nodup⟩
  · exact List.mem_cons_of_mem _ hI.s_closed
  · intro h
    rcases List.mem_cons.mp h with h2 | h2
    · exact hne h2.symm
    · exact hI.e_unclosed h2
  · intro nd hnd hmem
    rcases List.mem_cons.mp hmem with h2 | h2
    · exact hcur_not_rest (h2 ▸ List.mem_map_of_mem ANode.pos hnd)
    · exact hI.front_unclosed nd (hrest_sub nd hnd) h2
  · exact hrest_nodup
  · intro nd hnd
    exact hI.front_sound nd (hrest_sub nd hnd)
  · intro nd hnd
    exact hI.front_pass nd (hrest_sub nd hnd)
  · intro nd hnd
    exact hI.front_gmap nd (hrest_sub nd hnd)
  · exact hI.gmap_zero
  · intro p g hp
    rcases hI.gmap_cover p g hp with h | ⟨nd, hnd, hndp, hndg⟩
    · exact Or.inl (List.mem_cons_of_mem _ h)
    · by_cases hpc : nd.pos = cur.pos
      · left
        rw [← hndp, hpc]
        exact List.mem_cons_self _ _
      · right
        refine ⟨nd, ?_, hndp, hndg⟩
        have h2 : nd ∈ cur :: rest := hperm.mem_iff.mp hnd
        rcases List.mem_cons.mp h2 with h3 | h3
        · exact absurd (by rw [h3]) hpc
        · exact h3
  · intro p hp
    rcases List.mem_cons.mp hp with h2 | h2
    · subst h2
      exact ⟨cur.g, hcur_gmap, hI.front_sound cur hcur_mem, hopt⟩
    · exact hI.closed_opt p h2
  · intro p hp hpc gp hgp d hd hpass hnc
    rcases List.mem_cons.mp hp with h2 | h2
    · exact absurd h2 hpc
    · have hnc2 : p.add d ∉ st.closed := fun hh => hnc (List.mem_cons_of_mem _ hh)
      obtain ⟨nd, hnd, hndp, hndg⟩ := hI.closed_exp p h2 gp hgp d hd hpass hnc2
      refine ⟨nd, ?_, hndp, hndg⟩
      have h3 : nd ∈ cur :: rest := hperm.mem_iff.mp hnd
      rcases List.mem_cons.mp h3 with h4 | h4
      · exfalso
        apply hnc
        rw [← hndp, h4]
        exact List.mem_cons_self _ _
      · exact h4
  · intro p hp
    rcases List.mem_cons.mp hp with h2 | h2
    · subst h2
      exact hI.front_pass cur hcur_mem
    · exact hI.closed_pass p h2
  · exact List.mem_cons_self _ _
  · exact hcur_gmap

theorem closed_le_box (l : Level) (s e : Vec) (st : SearchSt) (hI : AInv l s e st) :
    st.closed.length ≤ l.config.gridSize * l.config.gridSize + 1 := by
  have hsub : ∀ p ∈ st.closed, p ∈ insert s (boxF l.config.gridSize) := by
    intro p hp
    rcases hI.closed_pass p hp with h | h
    · rw [h]
      exact Finset.mem_insert_self s _
    · apply Finset.mem_insert_of_mem
      have hval : l.isValidPosition p = true := by
        unfold Level.isPassable at h
        rw [Bool.and_eq_true] at h
        exact h.1
      unfold Level.isValidPosition at hval
      rw [Bool.and_eq_true, Bool.and_eq_true, Bool.and_eq_true] at hval
      obtain ⟨⟨⟨h1, h2⟩, h3⟩, h4⟩ := hval
      simp only [decide_eq_true_eq] at h1 h2 h3 h4
      unfold boxF
      refine Finset.mem_image.mpr ⟨(p.x, p.y), ?_, rfl⟩
      rw [Finset.mem_product]
      constructor
      · rw [Finset.mem_Ico]
        exact ⟨h1, h2⟩
      · rw [Finset.mem_Ico]
        exact ⟨h3, h4⟩
  have hcard : st.closed.length ≤ (insert s (boxF l.config.gridSize)).card := by
    rw [← List.toFinset_card_of_nodup hI.closed_nodup]
    apply Finset.card_le_card
    intro p hp
    rw [List.mem_toFinset] at hp
    exact hsub p hp
  have h1 : (Finset.Ico (0 : Int) (l.config.gridSize : Int)).card = l.config.gridSize := by
    rw [Int.card_Ico]
    omega
  have hbox : (boxF l.config.gridSize).card ≤ l.config.gridSize * l.config.gridSize := by
    unfold boxF
    calc ((Finset.Ico (0 : Int) (l.config.gridSize : Int) ×ˢ
            Finset.Ico (0 : Int) (l.config.gridSize : Int)).image
          (fun q => (⟨q.1, q.2⟩ : Vec))).card
        ≤ (Finset.Ico (0 : Int) (l.config.gridSize : Int) ×ˢ
            Finset.Ico (0 : Int) (l.config.gridSize : Int)).card := Finset.card_image_le
      _ = l.config.gridSize * l.config.gridSize := by
          rw [Finset.card_product, h1]
  have hins : (insert s (boxF l.config.gridSize)).card ≤ (boxF l.config.gridSize).card + 1 :=
    Finset.card_insert_le s _
  omega

theorem astar_loop_correct (l : Level) (s e : Vec) :
    ∀ (fuel : Nat) (st : SearchSt), AInv l s e st →
      l.config.gridSize * l.config.gridSize + 2 ≤ st.closed.length + fuel →
      ((astarLoop l e fuel st = none → ∀ m, ¬ PathLen l s e m) ∧
       (∀ n, astarLoop l e fuel st = some n →
         PathLen l s e n ∧ ∀ m, PathLen l s e m → n ≤ m)) := by
  intro fuel
  induction fuel with
  | zero =>
    intro st hI hbound
    exfalso
    have hb := closed_le_box l s e st hI
    omega
  | succ f ih =>
    intro st hI hbound
    have hunf : astarLoop l e (f + 1) st =
        match selectMin e st.frontier with
        | none => none
        | some (cur, rest) =>
          if cur.pos = e then some cur.g
          else astarLoop l e f (expandNode l cur
            { frontier := rest, closed := cur.pos :: st.closed, gmap := st.gmap }) := rfl
    rcases hsel : selectMin e st.frontier with _ | ⟨cur, rest⟩
    · rw [hsel] at hunf
      dsimp only at hunf
      constructor
      · intro _ m hm
        have hfr : st.frontier = [] := selectMin_none e st.frontier hsel
        obtain ⟨gs0, hgs, hspl, hsmin⟩ := hI.closed_opt s hI.s_closed
        have hgs0 : gs0 = 0 := Nat.le_zero.mp (hsmin 0 (PathLen.nil s))
        subst hgs0
        obtain ⟨nd, hnd, _⟩ :=
          closed_escape l s e st hI m s e 0 hI.s_closed hI.e_unclosed hgs hm
        rw [hfr] at hnd
        cases hnd
      · intro n hn
        rw [hunf] at hn
        cases hn
    · rw [hsel] at hunf
      dsimp only at hunf
      by_cases hce : cur.pos = e
      · rw [if_pos hce] at hunf
        have hcur_mem : cur ∈ st.frontier :=
          (selectMin_perm e st.frontier cur rest hsel).mem_iff.mpr
            (List.mem_cons_self cur rest)
        constructor
        · intro hn
          rw [hunf] at hn
          cases hn
        · intro n hn
          rw [hunf] at hn
          have hng : cur.g = n := Option.some_inj.mp hn
          subst hng
          constructor
          · have hs := hI.front_sound cur hcur_mem
            rwa [hce] at hs
          · intro m hm
            exact pop_opt l s e st cur rest hI hsel m (by rw [hce]; exact hm)
      · rw [if_neg hce] at hunf
        have hmid := pop_midInv l s e st cur rest hI hsel hce
        have hstep := expand_ainv l s e cur _ hmid
        have h2 : (expandNode l cur
            { frontier := rest, closed := cur.pos :: st.closed, gmap := st.gmap }).closed =
            cur.pos :: st.closed :=
          foldl_relax_closed l cur directions _
        have hlen : (expandNode l cur
            { frontier := rest, closed := cur.pos :: st.closed,
              gmap := st.gmap }).closed.length = st.closed.length + 1 := by
          rw [h2]
          rfl
        have hrec := ih _ hstep (by omega)
        rw [hunf]
        exact hrec

theorem getPathDistance_correct (l : Level) (s e : Vec) :
    (getPathDistance l s e = none → ∀ m, ¬ PathLen l s e m) ∧
    (∀ n, getPathDistance l s e = some n →
      PathLen l s e n ∧ ∀ m, PathLen l s e m → n ≤ m) := by
  by_cases hse : s = e
  · subst hse
    constructor
    · intro h
      unfold getPathDistance at h
      rw [if_pos rfl] at h
      cases h
    · intro n hn
      unfold getPathDistance at hn
      rw [if_pos rfl] at hn
      have h0 : (0 : Nat) = n := Option.some_inj.mp hn
      subst h0
      exact ⟨PathLen.nil s, fun m _ => Nat.zero_le m⟩
  · have hunf : getPathDistance l s e =
        astarLoop l e (l.config.gridSize * l.config.gridSize + 2)
          { frontier := [⟨s, 0⟩], closed := [], gmap := [(s, 0)] } := by
      unfold getPathDistance
      rw [if_neg hse]
    have hsplit : l.config.gridSize * l.config.gridSize + 2 =
        (l.config.gridSize * l.config.gridSize + 1) + 1 := by omega
    rw [hsplit] at hunf
    have hstep : astarLoop l e ((l.config.gridSize * l.config.gridSize + 1) + 1)
          { frontier := [⟨s, 0⟩], closed := [], gmap := [(s, 0)] } =
        match selectMin e [(⟨s, 0⟩ : ANode)] with
        | none => none
        | some (cur, rest) =>
          if cur.pos = e then some cur.g
          else astarLoop l e (l.config.gridSize * l.config.gridSize + 1)
            (expandNode l cur
              { frontier := rest, closed := cur.pos :: [], gmap := [(s, 0)] }) := rfl
    have hsel : selectMin e [(⟨s, 0⟩ : ANode)] = some (⟨s, 0⟩, []) := rfl
    rw [hsel] at hstep
    dsimp only at hstep
    rw [if_neg hse] at hstep
    rw [hstep] at hunf
    have hmid : MidInv l s e ⟨s, 0⟩ { frontier := [], closed := [s], gmap := [(s, 0)] } := by
      refine ⟨?_, ?_, ?_, ?_, ?_, ?_, ?_, ?_, ?_, ?_, ?_, ?_, ?_, ?_, ?_⟩
      · exact List.nodup_singleton s
      · exact List.mem_singleton_self s
      · intro h
        rw [List.mem_singleton] at h
        exact hse h.symm
      · intro nd hnd
        cases hnd
      · exact List.nodup_nil
      · intro nd hnd
        cases hnd
      · intro nd hnd
        cases hnd
      · intro nd hnd
        cases hnd
      · intro p hp
        by_cases h2 : s = p
        · exact h2.symm
        · simp [lookupA, h2] at hp
      · intro p g hp
        by_cases h2 : s = p
        · left
          rw [← h2]
          exact List.mem_singleton_self s
        · simp [lookupA, h2] at hp
      · intro p hp
        rw [List.mem_singleton] at hp
        subst hp
        refine ⟨0, ?_, PathLen.nil p, fun m _ => Nat.zero_le m⟩
        simp [lookupA]
      · intro p hp hpc gp hgp d hd hpass hnc
        rw [List.mem_singleton] at hp
        exact absurd hp hpc
      · intro p hp
        rw [List.mem_singleton] at hp
        exact Or.inl hp
      · exact List.mem_singleton_self s
      · show lookupA [(s, 0)] s = some 0
        simp [lookupA]
    have hainv := expand_ainv l s e ⟨s, 0⟩ _ hmid
    have h2 : (expandNode l ⟨s, 0⟩
        { frontier := [], closed := [s], gmap := [(s, 0)] }).closed = [s] :=
      foldl_relax_closed l ⟨s, 0⟩ directions _
    have hlen : (expandNode l ⟨s, 0⟩
        { frontier := [], closed := [s], gmap := [(s, 0)] }).closed.length = 1 := by
      rw [h2]
      rfl
    have hmain := astar_loop_correct l s e (l.config.gridSize * l.config.gridSize + 1) _
      hainv (by omega)
    rw [hunf]
    exact hmain

/-- C4: getPathDistance is exact shortest path search: for all cells a and
b of a level it returns some n exactly when n is the hop count of a
shortest four-directional path from a to b through passable Floor cells
(guards and bombs ignored), and returns none, the JS Infinity, exactly
when no such path exists. -/
theorem C4_getPathDistance_exact (l : Level) (a b : Vec) :
    (∀ n, getPathDistance l a b = some n ↔
      (PathLen l a b n ∧ ∀ m, PathLen l a b m → n ≤ m)) ∧
    (getPathDistance l a b = none ↔ ∀ m, ¬ PathLen l a b m) := by
  obtain ⟨hnone, hsome⟩ := getPathDistance_correct l a b
  constructor
  · intro n
    constructor
    · exact hsome n
    · intro hex
      obtain ⟨hp, hmin⟩ := hex
      rcases hres : getPathDistance l a b with _ | n2
      · exact absurd hp (hnone hres n)
      · obtain ⟨hp2, hmin2⟩ := hsome n2 hres
        have h1 := hmin n2 hp2
        have h2 := hmin2 n hp
        rw [Nat.le_antisymm h2 h1]
  · constructor
    · intro h
      exact hnone h
    · intro h
      rcases hres : getPathDistance l a b with _ | n2
      · rfl
      · exact absurd (hsome n2 hres).1 (h n2)

/-- C4 witness: on the corridor level the cells (1, 1) and (3, 1) are two
hops apart, certified by evaluating getPathDistance. -/
theorem C4_witness : PathLen lvC1 ⟨1, 1⟩ ⟨3, 1⟩ 2 :=
  (((C4_getPathDistance_exact lvC1 ⟨1, 1⟩ ⟨3, 1⟩).1 2).mp (by decide)).1
